import Mathlib

/-!
# Verification of the cmos-prometheus-exporter memcached metrics pipeline

A shallow embedding, in Lean 4, of the histogram accumulator / resampler and
of the metric-mapping code of `pkg/metrics/memcached` (files `histogram.go`
and `memcached.go`, in their current revisions: the ones exercised by
`histogram_test.go`, i.e. `newHistogram`/`addReadings` with the midpoint sum
formula and the delta-based `resample`, and the `memcached.go` with
`Multiplier`, label transforms and singleton tracking).

Modelling conventions:
* `float64` values that carry stat bounds and sums are embedded as `ℚ`
  (no claim under study depends on binary rounding); `+Inf`, which Go uses
  as a `float64` map key after resampling, is embedded as `⊤ : WithTop ℚ`.
* `uint64` is embedded as `Nat` together with explicit wrap-around
  (`% 2^64`) in the operations that Go performs on `uint64` values.
* Go maps are embedded as association lists (`List (key × value)`);
  assignment replaces the first binding of the key or appends a fresh one.
  Iteration order over a Go map is unspecified; the code under study sorts
  the keys before using them, or (for emission) its order is irrelevant to
  the stated claims.
* Go strings are embedded as `List Char`.
* Code that can fail is embedded with explicit outcome values: `GoResult`
  (or `Option`) distinguishes a normal result, a returned `error`, and a
  runtime panic.
-/

/-- `2^64`, the modulus of Go's `uint64` arithmetic. -/
def U : Nat := 18446744073709551616

/-- Go `uint64` addition (wraps at `2^64`). -/
def uadd (a b : Nat) : Nat := (a + b) % U

/-- Go `uint64` subtraction `a - b` (wraps at `2^64`; both arguments are
`uint64` values, i.e. `< 2^64`). -/
def usub (a b : Nat) : Nat := (a + U - b) % U

/-- Go strings, embedded as their character lists. -/
abbrev Str := List Char

/-- Replace-or-append insertion into an association list: the embedding of
assignment `m[k] = v` on a Go map represented as a `List (ℚ × Nat)`. -/
def insertA (m : List (ℚ × Nat)) (k : ℚ) (v : Nat) : List (ℚ × Nat) :=
  match m with
  | [] => [(k, v)]
  | (k0, v0) :: rest => if k0 = k then (k, v) :: rest else (k0, v0) :: insertA rest k v

/-- Lookup in an association list (the embedding of reading a Go map). -/
def lookupA (m : List (ℚ × Nat)) (k : ℚ) : Option Nat :=
  match m with
  | [] => none
  | (k0, v0) :: rest => if k0 = k then some v0 else lookupA rest k

/-- The `histogram` struct of `histogram.go` (the `desc` field, an opaque
handle of the prometheus client, is carried by the enclosing sample instead;
`labels` are the resolved label values). `buckets` maps an upper bound to the
cumulative count of observations at or below it. -/
structure Histogram where
  labels : List Str
  buckets : List (ℚ × Nat)
  sum : ℚ
  count : Nat
deriving DecidableEq, Repr

/-- `newHistogram` of `histogram.go`. -/
def newHistogram (labels : List Str) : Histogram :=
  { labels := labels, buckets := [], sum := 0, count := 0 }

/-- `histogram.addReadings` of `histogram.go`:
```go
h.buckets[upperBound] = h.count + value
h.count += value
h.sum += float64(value) * ((lowerBound + upperBound) / 2)
``` -/
def addReadings (h : Histogram) (lowerBound upperBound : ℚ) (value : Nat) : Histogram :=
  { labels := h.labels
    buckets := insertA h.buckets upperBound (uadd h.count value)
    sum := h.sum + (value : ℚ) * ((lowerBound + upperBound) / 2)
    count := uadd h.count value }

/-- The sorted list of existing upper bounds built at the start of
`histogram.resample` (`for key := range h.buckets` followed by
`sort.Float64s`). -/
def sortedKeys (h : Histogram) : List ℚ :=
  List.insertionSort (fun a b => a ≤ b) (h.buckets.map Prod.fst)

/-- Reading `h.buckets[ub]` for a key known to be present. -/
def bucketVal (h : Histogram) (q : ℚ) : Nat := (lookupA h.buckets q).getD 0

/-- The loop of `histogram.resample`, walking the sorted old upper bounds.
`c` reads the old cumulative counts, `nb` is `newUpperBounds`, `prev` the
previous old upper bound (`oldUpperBounds[i-1]`, absent at `i = 0`), `sum`
and `idx` the loop variables `sum` and `nextNewUpperBoundIndex`. The result
is the list of insertions into the `resampled` map, in order; the keys
inserted are pairwise distinct whenever `nb` is strictly ascending, so the
list is exactly the final map.
```go
for i, ub := range oldUpperBounds {
    if i == 0 { sum += h.buckets[ub] } else { sum += h.buckets[ub] - h.buckets[oldUpperBounds[i-1]] }
    if i == len(oldUpperBounds)-1 {
        if nextNewUpperBoundIndex == len(newUpperBounds) { resampled[math.Inf(1)] = sum
        } else { resampled[newUpperBounds[nextNewUpperBoundIndex]] = sum }
        break
    }
    if nextNewUpperBoundIndex == len(newUpperBounds) { resampled[math.Inf(1)] = sum; break }
    if oldUpperBounds[i+1] > newUpperBounds[nextNewUpperBoundIndex] {
        resampled[newUpperBounds[nextNewUpperBoundIndex]] = sum
        nextNewUpperBoundIndex += 1
    }
}
``` -/
def resampleGo (c : ℚ → Nat) (nb : List ℚ) :
    List ℚ → Option ℚ → Nat → Nat → List (WithTop ℚ × Nat)
  | [], _, _, _ => []
  | ub :: rest, prev, sum, idx =>
    let delta : Nat :=
      match prev with
      | none => c ub
      | some p => usub (c ub) (c p)
    let sum1 := uadd sum delta
    match rest with
    | [] =>
      if idx = nb.length then [((⊤ : WithTop ℚ), sum1)]
      else [(((nb.getD idx 0 : ℚ) : WithTop ℚ), sum1)]
    | next :: _ =>
      if idx = nb.length then [((⊤ : WithTop ℚ), sum1)]
      else if nb.getD idx 0 < next then
        (((nb.getD idx 0 : ℚ) : WithTop ℚ), sum1) :: resampleGo c nb rest (some ub) sum1 (idx + 1)
      else resampleGo c nb rest (some ub) sum1 idx

/-- `histogram.resample` of `histogram.go`: the map assigned to `h.buckets`
at the end (as its list of insertions). -/
def resample (h : Histogram) (newUpperBounds : List ℚ) : List (WithTop ℚ × Nat) :=
  resampleGo (bucketVal h) newUpperBounds (sortedKeys h) none 0 0

/-- One raw bucketed reading `(lowerBound, upperBound, count)`, the argument
triple of `addReadings`. -/
structure Span where
  lb : ℚ
  ub : ℚ
  cnt : Nat
deriving DecidableEq, Repr

/-- An accumulator built by feeding a list of spans, in order, into a fresh
histogram — the way `mapHistogramStat` and the tests build one. -/
def fromSpans (sp : List Span) : Histogram :=
  sp.foldl (fun h s => addReadings h s.lb s.ub s.cnt) (newHistogram [])

/-- Total observation count of a span list. -/
def spTotal (sp : List Span) : Nat := (sp.map Span.cnt).sum

/-- The midpoint sum estimate of a span list. -/
def estSum (sp : List Span) : ℚ :=
  (sp.map (fun s => (s.cnt : ℚ) * ((s.lb + s.ub) / 2))).sum

/-- The cumulative bucket list that `addReadings` builds from spans with
pairwise-distinct upper bounds, starting from running total `t`. -/
def cumList (t : Nat) : List Span → List (ℚ × Nat)
  | [] => []
  | s :: rest => (s.ub, t + s.cnt) :: cumList (t + s.cnt) rest

/-- Proof-side restatement of the `resample` loop over the spans' own
`(upperBound, countInBin)` pairs with exact `Nat` arithmetic: the deltas
`h.buckets[ub] - h.buckets[prev]` recover each bin's own count, so the loop
is the same walk with `sum` accumulating bin counts directly
(`resampleGo_eq_dloop` proves the two agree on accumulators built from
well-formed spans). -/
def dloop (nb : List ℚ) : List (ℚ × Nat) → Nat → Nat → List (WithTop ℚ × Nat)
  | [], _, _ => []
  | (ub, v) :: rest, sum, idx =>
    let sum1 := sum + v
    match rest with
    | [] =>
      if idx = nb.length then [((⊤ : WithTop ℚ), sum1)]
      else [(((nb.getD idx 0 : ℚ) : WithTop ℚ), sum1)]
    | (next, _) :: _ =>
      if idx = nb.length then [((⊤ : WithTop ℚ), sum1)]
      else if nb.getD idx 0 < next then
        (((nb.getD idx 0 : ℚ) : WithTop ℚ), sum1) :: dloop nb rest sum1 (idx + 1)
      else dloop nb rest sum1 idx

/-- Outcome of running a piece of Go code that may return an `error` or hit a
runtime panic. -/
inductive GoResult (α : Type) where
  | ok (a : α)
  | err
  | panicked
deriving DecidableEq, Repr

/-- `key[strings.LastIndexByte(key, '_')+1:]`: the suffix after the last
underscore (the whole string when there is none, since the index is then
`-1`). -/
def afterLastUnderscore (s : Str) : Str :=
  (s.reverse.takeWhile (fun c => c ≠ '_')).reverse

/-- `key[:strings.LastIndexByte(key, '_')]`: the prefix before the last
underscore (`statName` in `mapHistogramStat`). For a key with no
underscore, `LastIndexByte` returns `-1` and the slice `key[:-1]` raises a
runtime slice-bounds panic, embedded as `none`. -/
def beforeLastUnderscore (s : Str) : Option Str :=
  if '_' ∈ s then some ((s.reverse.dropWhile (fun c => c ≠ '_')).tail.reverse) else none

/-- `s[:strings.IndexRune(s, c)]` when the rune occurs. -/
def beforeChar (c : Char) (s : Str) : Str := s.takeWhile (fun x => x ≠ c)

/-- `s[strings.IndexRune(s, c)+1:]` when the rune occurs. -/
def afterChar (c : Char) (s : Str) : Str := (s.dropWhile (fun x => x ≠ c)).tail

/-- Value of a digit list read in base 10. -/
def digitsVal (s : Str) : Nat := s.foldl (fun acc c => 10 * acc + (c.toNat - 48)) 0

/-- Model of `strconv.ParseFloat(s, 64)` on the decimal forms
`[+-]digits[.digits][(e|E)[+-]digits]` (with at least one digit in the
mantissa), returning the exact rational value. `strconv` additionally
accepts `Inf`/`NaN`/hex forms and rounds to the nearest `float64`; the
claims under study only use this parser on small decimal literals and only
depend on success versus failure, for which this model is faithful. -/
def parseFloat (s : Str) : Option ℚ :=
  let (sign, s1) : ℚ × Str :=
    match s with
    | '+' :: r => (1, r)
    | '-' :: r => (-1, r)
    | r => (1, r)
  let intPart := s1.takeWhile Char.isDigit
  let s2 := s1.dropWhile Char.isDigit
  let (fracPart, s3) : Str × Str :=
    match s2 with
    | '.' :: r => (r.takeWhile Char.isDigit, r.dropWhile Char.isDigit)
    | r => ([], r)
  if intPart = [] ∧ fracPart = [] then none
  else
    let mantissa : ℚ :=
      (digitsVal intPart : ℚ) + (digitsVal fracPart : ℚ) / ((10 : ℚ) ^ fracPart.length)
    match s3 with
    | [] => some (sign * mantissa)
    | e :: r =>
      if e = 'e' ∨ e = 'E' then
        let (eneg, r1) : Bool × Str :=
          match r with
          | '+' :: r2 => (false, r2)
          | '-' :: r2 => (true, r2)
          | r2 => (false, r2)
        if r1 ≠ [] ∧ r1.all Char.isDigit then
          let ev := digitsVal r1
          some (sign * (if eneg then mantissa / (10 : ℚ) ^ ev else mantissa * (10 : ℚ) ^ ev))
        else none
      else none

/-- Model of `strconv.ParseUint(s, 10, 64)`: decimal digits only, value must
fit in `uint64`. -/
def parseUint (s : Str) : Option Nat :=
  if s ≠ [] ∧ s.all Char.isDigit then
    if digitsVal s < U then some (digitsVal s) else none
  else none

/-- Go's `int64(f)` conversion of a `float64`: truncation toward zero. -/
def ftrunc (q : ℚ) : Int := if 0 ≤ q then Int.floor q else Int.ceil q

/-- `findBounds` of `histogram.go`, returning the two bounds as
`time.Duration` values (nanoseconds):
```go
lastUnderscoreIdx := strings.LastIndexByte(key, '_')
bucketBounds := key[lastUnderscoreIdx+1:]
commaIdx := strings.IndexRune(bucketBounds, ',')
lowerBound, err := strconv.ParseFloat(bucketBounds[:commaIdx], 64)
if err != nil { return 0, 0, err }
upperBound, err := strconv.ParseFloat(bucketBounds[commaIdx+1:], 64)
return time.Duration(lowerBound) * time.Microsecond, time.Duration(upperBound) * time.Microsecond, err
```
When the suffix holds no comma, `commaIdx` is `-1` and the slice
`bucketBounds[:commaIdx]` raises a runtime slice-bounds panic, embedded as
`GoResult.panicked`. -/
def findBounds (key : Str) : GoResult (Int × Int) :=
  let bucketBounds := afterLastUnderscore key
  if ',' ∈ bucketBounds then
    match parseFloat (beforeChar ',' bucketBounds) with
    | none => GoResult.err
    | some lowerBound =>
      match parseFloat (afterChar ',' bucketBounds) with
      | none => GoResult.err
      | some upperBound => GoResult.ok (ftrunc lowerBound * 1000, ftrunc upperBound * 1000)
  else GoResult.panicked

/-- `time.Duration.Seconds()`: nanoseconds to (exact, in this embedding)
seconds. -/
def nsToSec (n : Int) : ℚ := (n : ℚ) / 1000000000

/-- Model of a compiled `regexp.Regexp` as used by `memcached.go`:
`MatchString`, `FindStringSubmatch` (`none` embeds Go's `nil` result) and
`SubexpNames` (entry 0 names the whole match and is the empty string). -/
structure Rexp where
  matchString : Str → Bool
  findSubmatch : Str → Option (List Str)
  subexpNames : List Str

/-- `regexp.Regexp.SubexpIndex(name)`: index of the first subexpression with
the given name (`none` embeds Go's `-1`). -/
def subexpIndex (names : List Str) (name : Str) : Option Nat :=
  names.findIdx? (fun s => s = name)

/-- `common.MetricType`. -/
inductive MetricType where
  | gauge
  | counter
  | untyped
  | histogram
deriving DecidableEq, Repr

/-- The fields of `MetricConfig` (`memcached.go`) that the claims under
study depend on; `Pattern` appears as its compiled form in `InternalStat`.
A `Multiplier` left unset in the JSON document is Go's zero value `0`. -/
structure MetricConfig where
  Labels : List Str
  type : MetricType
  Multiplier : ℚ
  Singleton : Bool
  ResampleBuckets : List ℚ

/-- `internalStat` of `memcached.go`: the embedded `MetricConfig` (giving the
raw field `Multiplier`) plus the compiled pattern, the metric name and the
defaulted lowercase `multiplier` field. -/
structure InternalStat where
  name : Str
  exp : Rexp
  Labels : List Str
  type : MetricType
  Multiplier : ℚ
  multiplier : ℚ
  Singleton : Bool
  ResampleBuckets : List ℚ

/-- The construction of an `internalStat` in `updateMetricSet`
(`memcached.go`), in particular the defaulting of the `multiplier` field:
```go
multiplier := val.Multiplier
if multiplier == 0 { multiplier = 1 }
``` -/
def mkInternalStat (name : Str) (cfg : MetricConfig) (exp : Rexp) : InternalStat :=
  { name := name
    exp := exp
    Labels := cfg.Labels
    type := cfg.type
    Multiplier := cfg.Multiplier
    multiplier := if cfg.Multiplier = 0 then 1 else cfg.Multiplier
    Singleton := cfg.Singleton
    ResampleBuckets := cfg.ResampleBuckets }

/-- `strings.ToUpper` / `strings.ToLower`. -/
def strUpper (s : Str) : Str := s.map Char.toUpper

/-- `strings.ToLower`. -/
def strLower (s : Str) : Str := s.map Char.toLower

/-- The per-label transform parsing of `resolveLabelValues`
(`memcached.go`): a label of the form `name:uppercase` or `name:lowercase`
is split into the plain name and the transform; an unknown transform is
reported (`logger.DPanic`, which in a production logger logs and continues)
and the transform stays the identity. -/
def splitLabel (label : Str) : Str × (Str → Str) :=
  if ':' ∈ label then
    let name := beforeChar ':' label
    let tf := afterChar ':' label
    if tf = "uppercase".toList then (name, strUpper)
    else if tf = "lowercase".toList then (name, strLower)
    else (name, id)
  else (label, id)

/-- `resolveLabelValues` of `memcached.go`. `mt` is the non-`nil`
`FindStringSubmatch` result for the matched key. For a label that is not one
of the special names and has no samely-named capture group,
`SubexpIndex` returns `-1`; the code logs a warning and then evaluates
`match[metric.exp.SubexpIndex(label)]`, i.e. `match[-1]`, a runtime
index-out-of-range panic — embedded as `none`. (For an in-range index the
Go slice access is total because `FindStringSubmatch` returns one entry per
subexpression; `getD` embeds it.)
```go
default:
    if metric.exp.SubexpIndex(label) == -1 {
        m.logger.Warn("Missing sub-expression for label match", ...)
    }
    labelValues[i] = transformFn(match[metric.exp.SubexpIndex(label)])
``` -/
def resolveLabelValues (fakeCollections : Bool) (bucket : Str) (stat : InternalStat)
    (mt : List Str) : Option (List Str) :=
  go stat.Labels
where
  go : List Str → Option (List Str)
  | [] => some []
  | label :: rest =>
    let (name, tf) := splitLabel label
    let value : Option Str :=
      if name = "bucket".toList then some (tf bucket)
      else if name = "scope".toList ∨ name = "collection".toList then
        if fakeCollections then some (tf "_default".toList)
        else
          match subexpIndex stat.exp.subexpNames name with
          | some i => if 0 < i then some (tf (mt.getD i [])) else some []
          | none => some []
      else
        match subexpIndex stat.exp.subexpNames name with
        | some i => some (tf (mt.getD i []))
        | none => none
    match value with
    | none => none
    | some v =>
      match go rest with
      | none => none
      | some vs => some (v :: vs)

/-- An emitted prometheus sample: `MustNewConstMetric` for plain values,
`MustNewConstHistogram` for histograms (buckets keyed by upper bound or
`+Inf`). The `name` stands for the `*prometheus.Desc`. -/
inductive Sample where
  | value (name : Str) (v : ℚ) (labels : List Str)
  | histo (name : Str) (buckets : List (WithTop ℚ × Nat)) (sum : ℚ) (count : Nat)
      (labels : List Str)
deriving DecidableEq, Repr

/-- The metric name a sample is emitted under. -/
def sampleName : Sample → Str
  | Sample.value n _ _ => n
  | Sample.histo n _ _ _ _ => n

/-- Status with which a mapper returns to `processStatGroup`: a normal
return, a non-`nil` `error`, or a panic that propagates out of `Collect`. -/
inductive MStatus where
  | okS
  | errS
  | panicS
deriving DecidableEq, Repr

/-- The loop of `mapValueStat` (`memcached.go`): for each stat key matching
the pattern, parse the value, resolve labels, emit
`val * metric.multiplier` (the *defaulted* lowercase field). A parse failure
returns an `error` (keys already emitted stay emitted on the channel); a
label-resolution panic propagates. The iteration order of the Go map is
unspecified; this embedding iterates the association list in order (no claim
under study depends on the order). -/
def mapValueStatGo (stat : InternalStat) (fakeCollections : Bool) (bucket : Str) :
    List (Str × Str) → List Sample → List Sample × MStatus
  | [], acc => (acc, MStatus.okS)
  | (key, valStr) :: rest, acc =>
    match stat.exp.findSubmatch key with
    | none => mapValueStatGo stat fakeCollections bucket rest acc
    | some mt =>
      match parseFloat valStr with
      | none => (acc, MStatus.errS)
      | some val =>
        match resolveLabelValues fakeCollections bucket stat mt with
        | none => (acc, MStatus.panicS)
        | some labelValues =>
          mapValueStatGo stat fakeCollections bucket rest
            (acc ++ [Sample.value stat.name (val * stat.multiplier) labelValues])

/-- `mapValueStat` of `memcached.go`. -/
def mapValueStat (stat : InternalStat) (fakeCollections : Bool) (bucket : Str)
    (vals : List (Str × Str)) : List Sample × MStatus :=
  mapValueStatGo stat fakeCollections bucket vals []

/-- `histo, ok := histograms[statName]; if !ok { histo = newHistogram(metric.desc,
m.resolveLabelValues(bucket, metric, metric.exp.FindStringSubmatch(key))...) }`:
the histogram a key's span goes into — the existing one for the key's
`statName`, or a fresh one with labels resolved from the key's submatch.
`none` embeds a panic of `resolveLabelValues`. -/
def histFor (stat : InternalStat) (fakeCollections : Bool) (bucket : Str)
    (histos : List (Str × Histogram)) (statName : Str) (key : Str) : Option Histogram :=
  match histos.find? (fun p => p.1 = statName) with
  | some p => some p.2
  | none =>
    match resolveLabelValues fakeCollections bucket stat
        ((stat.exp.findSubmatch key).getD []) with
    | none => none
    | some labelValues => some (newHistogram labelValues)

/-- One histogram-building step of `mapHistogramStat`'s key loop, in the
source's order: compute `statName := key[:lastUnderscoreIdx]` (a
slice-bounds panic for a key with no underscore), find or create the
key's histogram (a `resolveLabelValues` panic propagates), then parse the
key's bounds and the stat's value and feed the span in. The per-`statName`
histograms live in an association list in creation order. -/
def histStep (stat : InternalStat) (fakeCollections : Bool) (bucket : Str)
    (vals : List (Str × Str)) (histos : List (Str × Histogram)) (key : Str) :
    GoResult (List (Str × Histogram)) :=
  match beforeLastUnderscore key with
  | none => GoResult.panicked
  | some statName =>
    match histFor stat fakeCollections bucket histos statName key with
    | none => GoResult.panicked
    | some histo =>
      match findBounds key with
      | GoResult.panicked => GoResult.panicked
      | GoResult.err => GoResult.err
      | GoResult.ok (lbNs, ubNs) =>
        match parseUint (((vals.find? (fun p => p.1 = key)).map Prod.snd).getD []) with
        | none => GoResult.err
        | some v =>
          let histo1 := addReadings histo (nsToSec lbNs * stat.Multiplier)
            (nsToSec ubNs * stat.Multiplier) v
          GoResult.ok (if (histos.find? (fun p => p.1 = statName)).isSome then
              histos.map (fun p => if p.1 = statName then (p.1, histo1) else p)
            else histos ++ [(statName, histo1)])

/-- The key loop of `mapHistogramStat` over the sorted matched keys. -/
def histLoop (stat : InternalStat) (fakeCollections : Bool) (bucket : Str)
    (vals : List (Str × Str)) :
    List Str → List (Str × Histogram) → GoResult (List (Str × Histogram))
  | [], histos => GoResult.ok histos
  | key :: rest, histos =>
    match histStep stat fakeCollections bucket vals histos key with
    | GoResult.ok histos1 => histLoop stat fakeCollections bucket vals rest histos1
    | GoResult.err => GoResult.err
    | GoResult.panicked => GoResult.panicked

/-- The emitted sample of one accumulated histogram (`histo.metric()` after
the optional `histo.resample(metric.ResampleBuckets)`). -/
def histSample (stat : InternalStat) (h : Histogram) : Sample :=
  Sample.histo stat.name
    (if stat.ResampleBuckets ≠ [] then resample h stat.ResampleBuckets
     else h.buckets.map (fun p => ((p.1 : WithTop ℚ), p.2)))
    h.sum h.count h.labels

/-- Whether a `GoResult` is a normal result. -/
def GoResult.isOk {α : Type} : GoResult α → Bool
  | GoResult.ok _ => true
  | _ => false

/-- The lower bound `sort.Slice` extracts from a key in `mapHistogramStat`'s
comparator (total function; only evaluated on keys whose `findBounds`
succeeds). -/
def fbLb (key : Str) : Int :=
  match findBounds key with
  | GoResult.ok (lb, _) => lb
  | _ => 0

/-- `mapHistogramStat` of `memcached.go`. Control flow:
* keys matching the pattern are collected; none ⟹ `(nil, nil)`;
* `sort.Slice` sorts them by parsed lower bound with a comparator that
  calls `findBounds` on its operands and **panics** on any failure
  (`panic(err)` for a parse error, or `findBounds`' own slice panic). With
  two or more matched keys the sort evaluates the comparator on every
  element, so any failing key panics; with a single matched key the
  comparator never runs. `sort.Slice` is not stable: on keys with equal
  parsed lower bounds the resulting order is unspecified, and this
  embedding fixes the insertion-sort order (no claim under study involves
  such ties);
* the loop then re-parses each key (`findBounds` / `ParseUint`), returning
  the first `error` to the caller, and accumulates spans into per-`statName`
  histograms, scaling both bounds by the **raw** field `metric.Multiplier`:
```go
histo.addReadings(lowerBound.Seconds()*metric.Multiplier, upperBound.Seconds()*metric.Multiplier, val)
```
* finally each histogram is optionally resampled and emitted. -/
def mapHistogramStat (stat : InternalStat) (fakeCollections : Bool) (bucket : Str)
    (vals : List (Str × Str)) : List Sample × MStatus :=
  let matchedKeys := (vals.map Prod.fst).filter stat.exp.matchString
  if matchedKeys = [] then ([], MStatus.okS)
  else if 2 ≤ matchedKeys.length ∧ ¬ ∀ k ∈ matchedKeys, (findBounds k).isOk = true then
    ([], MStatus.panicS)
  else
    let sorted := List.insertionSort (fun k1 k2 => fbLb k1 ≤ fbLb k2) matchedKeys
    match histLoop stat fakeCollections bucket vals sorted [] with
    | GoResult.panicked => ([], MStatus.panicS)
    | GoResult.err => ([], MStatus.errS)
    | GoResult.ok histos => (histos.map (fun p => histSample stat p.2), MStatus.okS)

/-- `processStatGroup` of `memcached.go` for the stats configured on one
group: skip singleton metrics already seen this cycle, dispatch on the
metric type, log-and-continue on a mapper `error`, record singletons after a
successful pass. The `Bool` reports a panic, which aborts the whole
`Collect` (samples already sent on the channel stay emitted). -/
def processStatGroup (fakeCollections : Bool) (bucket : Str) (vals : List (Str × Str))
    (singletons : List Str) : List InternalStat → List Sample × List Str × Bool
  | [] => ([], singletons, false)
  | stat :: rest =>
    if stat.Singleton = true ∧ stat.name ∈ singletons then
      processStatGroup fakeCollections bucket vals singletons rest
    else
      let (smps, st) :=
        match stat.type with
        | MetricType.histogram => mapHistogramStat stat fakeCollections bucket vals
        | _ => mapValueStat stat fakeCollections bucket vals
      match st with
      | MStatus.panicS => (smps, singletons, true)
      | MStatus.errS =>
        let (s2, g2, p2) := processStatGroup fakeCollections bucket vals singletons rest
        (smps ++ s2, g2, p2)
      | MStatus.okS =>
        let singletons1 := if stat.Singleton then stat.name :: singletons else singletons
        let (s2, g2, p2) := processStatGroup fakeCollections bucket vals singletons1 rest
        (smps ++ s2, g2, p2)

/-- The per-bucket loop of `Collect` (`memcached.go`) for one configured
stats group: the `singletons` set is created once before the loop and
threaded through every bucket (never reset); a panic propagates out of
`Collect`, aborting the cycle. Each item is a `(bucket, statsMap)` pair. -/
def collectCycleGo (fakeCollections : Bool) (stats : List InternalStat) :
    List (Str × List (Str × Str)) → List Str → List Sample × Bool
  | [], _ => ([], false)
  | (bucket, vals) :: rest, singletons =>
    let (smps, singletons1, pan) := processStatGroup fakeCollections bucket vals singletons stats
    if pan then (smps, true)
    else
      let (s2, p2) := collectCycleGo fakeCollections stats rest singletons1
      (smps ++ s2, p2)

/-- One collection cycle of `Collect`: the singleton set starts empty. -/
def collect (fakeCollections : Bool) (stats : List InternalStat)
    (items : List (Str × List (Str × Str))) : List Sample × Bool :=
  collectCycleGo fakeCollections stats items []

/-- Number of samples emitted under metric name `n`. -/
def countName (n : Str) (smps : List Sample) : Nat :=
  smps.countP (fun s => sampleName s = n)

/-- Number of keys of a raw stat map that a stat's pattern matches (by
either of the two regexp entry points the mappers use). -/
def countMatched (stat : InternalStat) (vals : List (Str × Str)) : Nat :=
  ((vals.map Prod.fst).filter
    (fun k => (stat.exp.findSubmatch k).isSome || stat.exp.matchString k)).length

/-! ## Arithmetic and accumulator lemmas -/

theorem uadd_eq_of_lt {a b : Nat} (h : a + b < U) : uadd a b = a + b :=
  Nat.mod_eq_of_lt h

theorem usub_eq_of_le {a b : Nat} (hba : b ≤ a) (ha : a < U) : usub a b = a - b := by
  have hU : 0 < U := by simp [U]
  have h1 : a + U - b = (a - b) + U := by omega
  rw [usub, h1, Nat.add_mod_right, Nat.mod_eq_of_lt (by omega)]

theorem spTotal_nil : spTotal [] = 0 := rfl

theorem spTotal_cons (s : Span) (sp : List Span) : spTotal (s :: sp) = s.cnt + spTotal sp := by
  simp [spTotal]

theorem spTotal_append (a b : List Span) : spTotal (a ++ b) = spTotal a + spTotal b := by
  simp [spTotal]

theorem estSum_cons (s : Span) (sp : List Span) :
    estSum (s :: sp) = (s.cnt : ℚ) * ((s.lb + s.ub) / 2) + estSum sp := by
  simp [estSum]

theorem insertA_of_not_mem (k : ℚ) (v : Nat) :
    ∀ (m : List (ℚ × Nat)), k ∉ m.map Prod.fst → insertA m k v = m ++ [(k, v)]
  | [], _ => rfl
  | (k0, v0) :: rest, h => by
    have hk : ¬ k0 = k := by
      intro hk
      exact h (by simp [hk])
    simp only [insertA, if_neg hk, List.cons_append, List.cons.injEq, true_and]
    exact insertA_of_not_mem k v rest (fun hm => h (by simp [hm]))

theorem cumList_keys (sp : List Span) : ∀ t, (cumList t sp).map Prod.fst = sp.map Span.ub := by
  induction sp with
  | nil => intro t; rfl
  | cons s rest ih => intro t; simp [cumList, ih]

/-- What a run of `addReadings` over spans with pairwise-distinct upper
bounds does to a histogram, provided the total count stays below `2^64`. -/
theorem foldl_addReadings (sp : List Span) :
    ∀ (h : Histogram), (h.buckets.map Prod.fst ++ sp.map Span.ub).Nodup →
      h.count + spTotal sp < U →
      sp.foldl (fun h s => addReadings h s.lb s.ub s.cnt) h =
        ⟨h.labels, h.buckets ++ cumList h.count sp, h.sum + estSum sp,
          h.count + spTotal sp⟩ := by
  induction sp with
  | nil =>
    intro h _ _
    simp [cumList, estSum, spTotal]
  | cons s rest ih =>
    intro h hnd hov
    have hcnt : h.count + s.cnt < U := by
      have := hov
      rw [spTotal_cons] at this
      omega
    have hub : s.ub ∉ h.buckets.map Prod.fst := by
      have hd := List.disjoint_of_nodup_append hnd
      intro hmem
      exact hd hmem (by simp)
    have hstep : addReadings h s.lb s.ub s.cnt =
        ⟨h.labels, h.buckets ++ [(s.ub, h.count + s.cnt)],
          h.sum + (s.cnt : ℚ) * ((s.lb + s.ub) / 2), h.count + s.cnt⟩ := by
      simp [addReadings, uadd_eq_of_lt hcnt, insertA_of_not_mem _ _ _ hub]
    rw [List.foldl_cons, hstep]
    have hnd2 : ((h.buckets ++ [(s.ub, h.count + s.cnt)]).map Prod.fst ++
        rest.map Span.ub).Nodup := by
      simpa [List.append_assoc] using hnd
    have hov2 : h.count + s.cnt + spTotal rest < U := by
      rw [spTotal_cons] at hov
      omega
    rw [ih ⟨h.labels, h.buckets ++ [(s.ub, h.count + s.cnt)],
        h.sum + (s.cnt : ℚ) * ((s.lb + s.ub) / 2), h.count + s.cnt⟩ hnd2 hov2]
    simp [cumList, estSum_cons, spTotal_cons, List.append_assoc]
    constructor
    · ring
    · omega

/-- `fromSpans` on well-formed spans: cumulative buckets, midpoint sum
estimate, exact total count. -/
theorem fromSpans_eq (sp : List Span) (hnd : (sp.map Span.ub).Nodup)
    (hov : spTotal sp < U) :
    fromSpans sp = ⟨[], cumList 0 sp, estSum sp, spTotal sp⟩ := by
  have := foldl_addReadings sp (newHistogram []) (by simpa [newHistogram] using hnd)
    (by simpa [newHistogram] using hov)
  simpa [fromSpans, newHistogram] using this

/-- Cumulative-count lookup: the bucket of the span after `pre` holds the
running total through that span. -/
theorem lookupA_cumList (s : Span) (post : List Span) :
    ∀ (pre : List Span) (t : Nat), ((pre ++ s :: post).map Span.ub).Nodup →
      lookupA (cumList t (pre ++ s :: post)) s.ub = some (t + spTotal pre + s.cnt) := by
  intro pre
  induction pre with
  | nil =>
    intro t _
    simp [cumList, lookupA, spTotal_nil]
  | cons x rest ih =>
    intro t hnd
    have hne : ¬ x.ub = s.ub := by
      intro he
      have : x.ub ∈ ((rest ++ s :: post).map Span.ub) := by simp [he]
      simp only [List.cons_append, List.map_cons, List.nodup_cons] at hnd
      exact hnd.1 this
    have hnd2 : ((rest ++ s :: post).map Span.ub).Nodup := by
      simp only [List.cons_append, List.map_cons, List.nodup_cons] at hnd
      exact hnd.2
    simp only [List.cons_append, cumList, lookupA, if_neg hne, List.append_eq]
    rw [ih (t + x.cnt) hnd2]
    congr 1
    rw [spTotal_cons]
    omega

/-- On an accumulator built from strictly ascending spans (total `< 2^64`),
the key extraction and sort at the start of `resample` give back the spans'
own upper bounds. -/
theorem sortedKeys_fromSpans (sp : List Span)
    (hasc : (sp.map Span.ub).Pairwise (fun a b => a < b)) (hov : spTotal sp < U) :
    sortedKeys (fromSpans sp) = sp.map Span.ub := by
  have hnd : (sp.map Span.ub).Nodup := hasc.imp (fun h => ne_of_lt h)
  rw [sortedKeys, fromSpans_eq sp hnd hov]
  simp only [cumList_keys]
  exact List.Sorted.insertionSort_eq (hasc.imp (fun h => le_of_lt h))

theorem resampleGo_cons_cons (c : ℚ → Nat) (nb : List ℚ) (ub next : ℚ) (rest : List ℚ)
    (prev : Option ℚ) (sum idx : Nat) :
    resampleGo c nb (ub :: next :: rest) prev sum idx =
      if idx = nb.length then
        [((⊤ : WithTop ℚ),
          uadd sum (match prev with | none => c ub | some p => usub (c ub) (c p)))]
      else if nb.getD idx 0 < next then
        (((nb.getD idx 0 : ℚ) : WithTop ℚ),
          uadd sum (match prev with | none => c ub | some p => usub (c ub) (c p))) ::
          resampleGo c nb (next :: rest) (some ub)
            (uadd sum (match prev with | none => c ub | some p => usub (c ub) (c p))) (idx + 1)
      else
        resampleGo c nb (next :: rest) (some ub)
          (uadd sum (match prev with | none => c ub | some p => usub (c ub) (c p))) idx := rfl

theorem resampleGo_single (c : ℚ → Nat) (nb : List ℚ) (ub : ℚ)
    (prev : Option ℚ) (sum idx : Nat) :
    resampleGo c nb [ub] prev sum idx =
      if idx = nb.length then
        [((⊤ : WithTop ℚ),
          uadd sum (match prev with | none => c ub | some p => usub (c ub) (c p)))]
      else
        [(((nb.getD idx 0 : ℚ) : WithTop ℚ),
          uadd sum (match prev with | none => c ub | some p => usub (c ub) (c p)))] := rfl

theorem dloop_cons_cons (nb : List ℚ) (ub next : ℚ) (v w : Nat) (rest : List (ℚ × Nat))
    (sum idx : Nat) :
    dloop nb ((ub, v) :: (next, w) :: rest) sum idx =
      if idx = nb.length then [((⊤ : WithTop ℚ), sum + v)]
      else if nb.getD idx 0 < next then
        (((nb.getD idx 0 : ℚ) : WithTop ℚ), sum + v) :: dloop nb ((next, w) :: rest) (sum + v) (idx + 1)
      else dloop nb ((next, w) :: rest) (sum + v) idx := rfl

theorem dloop_single (nb : List ℚ) (ub : ℚ) (v : Nat) (sum idx : Nat) :
    dloop nb [(ub, v)] sum idx =
      if idx = nb.length then [((⊤ : WithTop ℚ), sum + v)]
      else [(((nb.getD idx 0 : ℚ) : WithTop ℚ), sum + v)] := rfl

theorem resampleGo_eq_dloop_aux (nb : List ℚ) (sp : List Span)
    (hnd : (sp.map Span.ub).Nodup) (hov : spTotal sp < U) :
    ∀ (post pre : List Span), pre ++ post = sp → ∀ idx,
      resampleGo (fun q => (lookupA (cumList 0 sp) q).getD 0) nb (post.map Span.ub)
          ((pre.getLast?).map Span.ub) (spTotal pre) idx
        = dloop nb (post.map (fun s => (s.ub, s.cnt))) (spTotal pre) idx := by
  intro post
  induction post with
  | nil => intro pre hsplit idx; rfl
  | cons s post' ih =>
    intro pre hsplit idx
    have hcub : (lookupA (cumList 0 sp) s.ub).getD 0 = spTotal pre + s.cnt := by
      rw [← hsplit, lookupA_cumList s post' pre 0 (by rw [hsplit]; exact hnd)]
      simp
    have hle : spTotal pre + s.cnt ≤ spTotal sp := by
      rw [← hsplit, spTotal_append, spTotal_cons]
      omega
    have hprev : ((pre.getLast?).map Span.ub = none ∧ spTotal pre = 0) ∨
        ∃ pub, (pre.getLast?).map Span.ub = some pub ∧
          (lookupA (cumList 0 sp) pub).getD 0 = spTotal pre := by
      rcases List.eq_nil_or_concat pre with rfl | ⟨pre2, p, rfl⟩
      · exact Or.inl ⟨rfl, rfl⟩
      · refine Or.inr ⟨p.ub, by simp, ?_⟩
        have hsplit2 : pre2 ++ p :: (s :: post') = sp := by
          rw [← hsplit]; simp
        rw [← hsplit2, lookupA_cumList p (s :: post') pre2 0 (by rw [hsplit2]; exact hnd)]
        simp [List.concat_eq_append, spTotal_append, spTotal_cons, spTotal_nil]
    have hsum1 : uadd (spTotal pre)
        (match (pre.getLast?).map Span.ub with
          | none => (lookupA (cumList 0 sp) s.ub).getD 0
          | some p => usub ((lookupA (cumList 0 sp) s.ub).getD 0)
              ((lookupA (cumList 0 sp) p).getD 0)) = spTotal pre + s.cnt := by
      rcases hprev with ⟨hp, hz⟩ | ⟨pub, hp, hlook⟩
      · rw [hp, hz, hcub, hz]
        simp only []
        rw [uadd_eq_of_lt (by omega)]
        omega
      · rw [hp]
        simp only []
        rw [hcub, hlook, usub_eq_of_le (by omega) (by omega), uadd_eq_of_lt (by omega)]
        omega
    rcases post' with _ | ⟨s2, post2⟩
    · simp only [List.map_cons, List.map_nil]
      rw [resampleGo_single, dloop_single, hsum1]
    · have hihL : ∀ j, resampleGo (fun q => (lookupA (cumList 0 sp) q).getD 0) nb
          ((s2 :: post2).map Span.ub) (some s.ub) (spTotal (pre ++ [s])) j
          = dloop nb ((s2 :: post2).map (fun s => (s.ub, s.cnt))) (spTotal (pre ++ [s])) j := by
        intro j
        have := ih (pre ++ [s]) (by rw [← hsplit]; simp) j
        simpa [List.getLast?_concat] using this
      have hpreS : spTotal (pre ++ [s]) = spTotal pre + s.cnt := by
        simp [spTotal_append, spTotal_cons, spTotal_nil]
      rw [hpreS] at hihL
      simp only [List.map_cons] at hihL ⊢
      rw [resampleGo_cons_cons, dloop_cons_cons, hsum1, hihL, hihL]

/-- `resample` on an accumulator built from strictly ascending spans is the
clean delta walk `dloop` over the spans, started at `sum = 0`, `idx = 0`. -/
theorem resample_fromSpans_eq_dloop (sp : List Span) (nb : List ℚ)
    (hasc : (sp.map Span.ub).Pairwise (fun a b => a < b)) (hov : spTotal sp < U) :
    resample (fromSpans sp) nb = dloop nb (sp.map (fun s => (s.ub, s.cnt))) 0 0 := by
  have hnd : (sp.map Span.ub).Nodup := hasc.imp (fun h => ne_of_lt h)
  rw [resample, sortedKeys_fromSpans sp hasc hov]
  have hb : bucketVal (fromSpans sp) = fun q => (lookupA (cumList 0 sp) q).getD 0 := by
    funext q
    rw [bucketVal, fromSpans_eq sp hnd hov]
  rw [hb]
  exact resampleGo_eq_dloop_aux nb sp hnd hov sp [] rfl 0
theorem getLast?_cons_of_ne {α : Type} {l : List α} {p : α} (h : l.getLast? = some p)
    (a : α) : (a :: l).getLast? = some p := by
  cases l with
  | nil => simp at h
  | cons b t => rw [List.getLast?_cons_cons]; exact h

theorem getD_append_cons (b : ℚ) (d : ℚ) :
    ∀ (A : List ℚ) (B : List ℚ), (A ++ b :: B).getD A.length d = b := by
  intro A
  induction A with
  | nil => intro B; rfl
  | cons a A ih => intro B; simpa using ih B

/-- When the list of new bounds is not exhausted more than one old bucket
before the end (every old upper bound except possibly the last is at most
the largest new bound), the value flushed last by the `resample` walk is the
whole count of the walked pairs. -/
theorem dloop_getLast_value (nb : List ℚ) :
    ∀ (pairs : List (ℚ × Nat)) (sum idx : Nat), pairs ≠ [] → idx ≤ nb.length →
      (idx = nb.length → pairs.length = 1) →
      (∀ x ∈ (pairs.map Prod.fst).dropLast, ∀ lastb ∈ nb.getLast?, x ≤ lastb) →
      ∃ k, (dloop nb pairs sum idx).getLast? = some (k, sum + (pairs.map Prod.snd).sum) := by
  intro pairs
  induction pairs with
  | nil => intro sum idx h; exact absurd rfl h
  | cons hd tl ih =>
    intro sum idx _ hle hlast hcov
    obtain ⟨u, v⟩ := hd
    cases tl with
    | nil =>
      rw [dloop_single]
      by_cases hidx : idx = nb.length
      · exact ⟨⊤, by rw [if_pos hidx]; simp⟩
      · exact ⟨((nb.getD idx 0 : ℚ) : WithTop ℚ), by rw [if_neg hidx]; simp⟩
    | cons hd2 tl2 =>
      obtain ⟨u2, w⟩ := hd2
      have hidx : idx ≠ nb.length := by
        intro h
        have := hlast h
        simp at this
      have hlt : idx < nb.length := lt_of_le_of_ne hle hidx
      rw [dloop_cons_cons, if_neg hidx]
      by_cases hflush : nb.getD idx 0 < u2
      · rw [if_pos hflush]
        have hone : idx + 1 = nb.length → ((u2, w) :: tl2).length = 1 := by
          intro h1
          by_contra hne1
          have htl2 : tl2 ≠ [] := by
            intro h2
            rw [h2] at hne1
            exact hne1 rfl
          have hmem : u2 ∈ (((u, v) :: (u2, w) :: tl2).map Prod.fst).dropLast := by
            cases tl2 with
            | nil => exact absurd rfl htl2
            | cons a b => simp
          have hnbne : nb ≠ [] := by
            intro h0
            rw [h0] at hlt
            simp at hlt
          have hgl : nb.getLast? = some (nb.getD idx 0) := by
            rw [List.getLast?_eq_getElem?]
            have : nb.length - 1 = idx := by omega
            rw [this]
            have hget : nb[idx]? = some (nb.getD idx 0) := by
              rw [List.getD_eq_getElem?_getD]
              cases h : nb[idx]? with
              | none =>
                rw [List.getElem?_eq_none_iff] at h
                omega
              | some q => simp
            exact hget
          have := hcov u2 hmem (nb.getD idx 0) (by rw [hgl]; simp)
          exact absurd hflush (not_lt_of_le this)
        have hcov2 : ∀ x ∈ (((u2, w) :: tl2).map Prod.fst).dropLast,
            ∀ lastb ∈ nb.getLast?, x ≤ lastb := by
          intro x hx lastb hb
          refine hcov x ?_ lastb hb
          rcases tl2 with _ | ⟨c, d⟩
          · simp at hx
          · simp at hx ⊢
            tauto
        obtain ⟨k, hk⟩ := ih (sum + v) (idx + 1) (by simp) (by omega) hone hcov2
        refine ⟨k, ?_⟩
        rw [getLast?_cons_of_ne hk, ]
        congr 2
        simp
        omega
      · rw [if_neg hflush]
        have hcov2 : ∀ x ∈ (((u2, w) :: tl2).map Prod.fst).dropLast,
            ∀ lastb ∈ nb.getLast?, x ≤ lastb := by
          intro x hx lastb hb
          refine hcov x ?_ lastb hb
          rcases tl2 with _ | ⟨c, d⟩
          · simp at hx
          · simp at hx ⊢
            tauto
        obtain ⟨k, hk⟩ := ih (sum + v) idx (by simp) hle (fun h => absurd h hidx) hcov2
        refine ⟨k, ?_⟩
        rw [hk]
        congr 2
        simp
        omega
theorem dloop_keys_mem (nb : List ℚ) :
    ∀ (pairs : List (ℚ × Nat)) (sum idx : Nat), idx ≤ nb.length →
      ∀ p ∈ dloop nb pairs sum idx, p.1 = (⊤ : WithTop ℚ) ∨
        ∃ j, idx ≤ j ∧ ∃ hj : j < nb.length, p.1 = ((nb.get ⟨j, hj⟩ : ℚ) : WithTop ℚ) := by
  intro pairs
  induction pairs with
  | nil => intro sum idx _ p hp; simp [dloop] at hp
  | cons hd tl ih =>
    intro sum idx hle p hp
    obtain ⟨u, v⟩ := hd
    have hgetD : ∀ h : idx < nb.length, (nb.getD idx 0 : ℚ) = nb.get ⟨idx, h⟩ := by
      intro h
      rw [List.getD_eq_getElem?_getD, List.getElem?_eq_getElem h]
      simp [List.get_eq_getElem]
    cases tl with
    | nil =>
      rw [dloop_single] at hp
      by_cases hidx : idx = nb.length
      · rw [if_pos hidx] at hp
        rw [List.mem_singleton] at hp
        exact Or.inl (by rw [hp])
      · rw [if_neg hidx] at hp
        rw [List.mem_singleton] at hp
        have hlt : idx < nb.length := lt_of_le_of_ne hle hidx
        refine Or.inr ⟨idx, le_refl idx, hlt, ?_⟩
        rw [hp]
        show ((nb.getD idx 0 : ℚ) : WithTop ℚ) = _
        rw [hgetD hlt]
    | cons hd2 tl2 =>
      obtain ⟨u2, w⟩ := hd2
      rw [dloop_cons_cons] at hp
      by_cases hidx : idx = nb.length
      · rw [if_pos hidx] at hp
        rw [List.mem_singleton] at hp
        exact Or.inl (by rw [hp])
      · rw [if_neg hidx] at hp
        have hlt : idx < nb.length := lt_of_le_of_ne hle hidx
        by_cases hflush : nb.getD idx 0 < u2
        · rw [if_pos hflush] at hp
          rcases List.mem_cons.mp hp with rfl | hp2
          · refine Or.inr ⟨idx, le_refl idx, hlt, ?_⟩
            show ((nb.getD idx 0 : ℚ) : WithTop ℚ) = _
            rw [hgetD hlt]
          · rcases ih (sum + v) (idx + 1) (by omega) p hp2 with h | ⟨j, hj1, hj2, hj3⟩
            · exact Or.inl h
            · exact Or.inr ⟨j, by omega, hj2, hj3⟩
        · rw [if_neg hflush] at hp
          exact ih (sum + v) idx hle p hp

theorem dloop_keys_pairwise (nb : List ℚ) (hnb : nb.Pairwise (fun a b => a < b)) :
    ∀ (pairs : List (ℚ × Nat)) (sum idx : Nat), idx ≤ nb.length →
      ((dloop nb pairs sum idx).map Prod.fst).Pairwise (fun a b => a < b) := by
  intro pairs
  induction pairs with
  | nil => intro sum idx _; simp [dloop]
  | cons hd tl ih =>
    intro sum idx hle
    obtain ⟨u, v⟩ := hd
    cases tl with
    | nil =>
      rw [dloop_single]
      by_cases hidx : idx = nb.length
      · rw [if_pos hidx]; simp
      · rw [if_neg hidx]; simp
    | cons hd2 tl2 =>
      obtain ⟨u2, w⟩ := hd2
      rw [dloop_cons_cons]
      by_cases hidx : idx = nb.length
      · rw [if_pos hidx]; simp
      · rw [if_neg hidx]
        have hlt : idx < nb.length := lt_of_le_of_ne hle hidx
        by_cases hflush : nb.getD idx 0 < u2
        · rw [if_pos hflush]
          simp only [List.map_cons, List.pairwise_cons]
          constructor
          · intro y hy
            obtain ⟨p, hp, rfl⟩ := List.mem_map.mp hy
            rcases dloop_keys_mem nb ((u2, w) :: tl2) (sum + v) (idx + 1) (by omega) p hp with
              h | ⟨j, hj1, hj2, hj3⟩
            · rw [h]
              exact WithTop.coe_lt_top _
            · rw [hj3]
              have hgetD : (nb.getD idx 0 : ℚ) = nb.get ⟨idx, hlt⟩ := by
                rw [List.getD_eq_getElem?_getD, List.getElem?_eq_getElem hlt]
                simp [List.get_eq_getElem]
              rw [hgetD]
              have : nb.get ⟨idx, hlt⟩ < nb.get ⟨j, hj2⟩ :=
                List.pairwise_iff_get.mp hnb ⟨idx, hlt⟩ ⟨j, hj2⟩ (by simp; omega)
              exact_mod_cast this
          · exact ih (sum + v) (idx + 1) (by omega)
        · rw [if_neg hflush]
          exact ih (sum + v) idx hle
/-- The resampled buckets as cumulative `(bound, count)` pairs, used to state
what resampling into the accumulator's own bounds produces. -/
def cumPairs (t : Nat) : List (ℚ × Nat) → List (WithTop ℚ × Nat)
  | [] => []
  | (u, v) :: rest => (((u : ℚ) : WithTop ℚ), t + v) :: cumPairs (t + v) rest

theorem cumPairs_cumList (sp : List Span) :
    ∀ t, cumPairs t (sp.map (fun s => (s.ub, s.cnt))) =
      (cumList t sp).map (fun p => ((p.1 : WithTop ℚ), p.2)) := by
  induction sp with
  | nil => intro t; rfl
  | cons s rest ih => intro t; simp [cumPairs, cumList, ih]

/-- Resampling with new bounds equal to the walked pairs' own bounds walks in
lockstep: each old bucket is flushed, with its own cumulative count, into
the samely-positioned new bound. -/
theorem dloop_self (full : List (ℚ × Nat))
    (hasc : (full.map Prod.fst).Pairwise (fun a b => a < b)) :
    ∀ (suf pre : List (ℚ × Nat)), pre ++ suf = full →
      dloop (full.map Prod.fst) suf ((pre.map Prod.snd).sum) pre.length =
        cumPairs ((pre.map Prod.snd).sum) suf := by
  intro suf
  induction suf with
  | nil => intro pre hsplit; rfl
  | cons hd tl ih =>
    intro pre hsplit
    obtain ⟨u, v⟩ := hd
    have hlen : pre.length < (full.map Prod.fst).length := by
      rw [← hsplit]
      simp
    have hne : pre.length ≠ (full.map Prod.fst).length := by omega
    have hget : (full.map Prod.fst).getD pre.length 0 = u := by
      rw [← hsplit]
      have : (pre ++ (u, v) :: tl).map Prod.fst = pre.map Prod.fst ++ u :: tl.map Prod.fst := by
        simp
      rw [this]
      have hl : (pre.map Prod.fst).length = pre.length := by simp
      rw [← hl]
      exact getD_append_cons u 0 (pre.map Prod.fst) (tl.map Prod.fst)
    cases tl with
    | nil =>
      rw [dloop_single, if_neg hne, hget]
      rfl
    | cons hd2 tl2 =>
      obtain ⟨u2, w⟩ := hd2
      have hadj : u < u2 := by
        have hsub : List.Sublist [u, u2] (full.map Prod.fst) := by
          rw [← hsplit]
          have : (pre ++ (u, v) :: (u2, w) :: tl2).map Prod.fst =
              pre.map Prod.fst ++ u :: u2 :: tl2.map Prod.fst := by simp
          rw [this]
          refine List.Sublist.trans ?_ (List.sublist_append_right _ _)
          exact (List.cons_sublist_cons).mpr ((List.cons_sublist_cons).mpr (List.nil_sublist _))
        exact List.rel_of_pairwise_cons (hasc.sublist hsub) (by simp)
      rw [dloop_cons_cons, if_neg hne, hget, if_pos hadj]
      have := ih (pre ++ [(u, v)]) (by rw [← hsplit]; simp)
      have hlen2 : (pre ++ [(u, v)]).length = pre.length + 1 := by simp
      have hsum2 : ((pre ++ [(u, v)]).map Prod.snd).sum = (pre.map Prod.snd).sum + v := by simp
      rw [hlen2, hsum2] at this
      rw [this]
      simp [cumPairs]
/-! ## The claims -/

/-- The resample test fixture of `histogram_test.go` (`TestHistogramResample`,
case "simple"). -/
def fixtureSpans : List Span := [⟨0, 5, 5⟩, ⟨5, 10, 5⟩, ⟨10, 15, 5⟩, ⟨15, 20, 10⟩, ⟨20, 25, 5⟩]

/-- Lookup in the resampled map. -/
def lookupW (m : List (WithTop ℚ × Nat)) (k : WithTop ℚ) : Option Nat :=
  match m with
  | [] => none
  | (k0, v0) :: rest => if k0 = k then some v0 else lookupW rest k

/-- C1 (counterexample): on the repository's own test fixture
(spans (0,5,5), (5,10,5), (10,15,5), (15,20,10), (20,25,5), resample bounds
[10, 20]), `resample` produces `{10: 10, 20: 25, +Inf: 30}` — the values are
cumulative, so their plain sum is 65 while `totalCount` is 30: summing the
map's values does not give the total count. -/
theorem c1_sum_of_values_counterexample :
    ((resample (fromSpans fixtureSpans) [10, 20]).map Prod.snd).sum ≠
        (fromSpans fixtureSpans).count ∧
      resample (fromSpans fixtureSpans) [10, 20] =
        [(((10 : ℚ) : WithTop ℚ), 10), (((20 : ℚ) : WithTop ℚ), 25), ((⊤ : WithTop ℚ), 30)] ∧
      (fromSpans fixtureSpans).count = 30 := by
  refine ⟨?_, by decide, by decide⟩
  decide

/-- C1 (amended): the map produced by `resample` carries *cumulative* counts
on strictly increasing keys; it is the value at the maximum key (the last
entry) that equals the accumulator's `totalCount`, and that holds provided
the new bounds are not exhausted before the walk's final old bucket (every
old upper bound except possibly the last being at most the largest new
bound); the plain sum of the values exceeds `totalCount` whenever more than
one bucket is emitted (see the counterexample). -/
theorem c1_resample_final_value_eq_count (sp : List Span) (nb : List ℚ)
    (hne : sp ≠ [])
    (hasc : (sp.map Span.ub).Pairwise (fun a b => a < b))
    (hov : spTotal sp < U)
    (hnbne : nb ≠ [])
    (hnbasc : nb.Pairwise (fun a b => a < b))
    (hcov : ∀ x ∈ (sp.map Span.ub).dropLast, x ≤ nb.getLastD 0) :
    (∃ k, (resample (fromSpans sp) nb).getLast? = some (k, (fromSpans sp).count)) ∧
      ((resample (fromSpans sp) nb).map Prod.fst).Pairwise (fun a b => a < b) := by
  have hnd : (sp.map Span.ub).Nodup := hasc.imp (fun h => ne_of_lt h)
  rw [resample_fromSpans_eq_dloop sp nb hasc hov]
  have hkeys : ((sp.map (fun s => (s.ub, s.cnt))).map Prod.fst) = sp.map Span.ub := by
    simp
  constructor
  · have hcount : (fromSpans sp).count = spTotal sp := by
      rw [fromSpans_eq sp hnd hov]
    have hone : (0 : Nat) = nb.length → (sp.map (fun s => (s.ub, s.cnt))).length = 1 := by
      intro h0
      exact absurd h0.symm (by simpa using hnbne)
    have hcov2 : ∀ x ∈ ((sp.map (fun s => (s.ub, s.cnt))).map Prod.fst).dropLast,
        ∀ lastb ∈ nb.getLast?, x ≤ lastb := by
      rw [hkeys]
      intro x hx lastb hl
      have := hcov x hx
      rwa [List.getLastD_eq_getLast?, hl] at this
    obtain ⟨k, hk⟩ := dloop_getLast_value nb (sp.map (fun s => (s.ub, s.cnt))) 0 0
      (by simpa using hne) (Nat.zero_le _) hone hcov2
    have hsnd : (List.map Prod.snd (List.map (fun s => (s.ub, s.cnt)) sp)).sum = spTotal sp := by
      rw [List.map_map]
      have hcomp : (Prod.snd ∘ fun (s : Span) => (s.ub, s.cnt)) = Span.cnt := by
        funext s
        rfl
      rw [hcomp]
      rfl
    rw [hsnd, Nat.zero_add] at hk
    exact ⟨k, by rw [hk, hcount]⟩
  · exact dloop_keys_pairwise nb hnbasc (sp.map (fun s => (s.ub, s.cnt))) 0 0 (Nat.zero_le _)

theorem c1_witness :
    (fixtureSpans ≠ [] ∧
      (fixtureSpans.map Span.ub).Pairwise (fun a b => a < b) ∧
      spTotal fixtureSpans < U ∧
      ([10, 20] : List ℚ) ≠ [] ∧
      ([10, 20] : List ℚ).Pairwise (fun a b => a < b) ∧
      (∀ x ∈ (fixtureSpans.map Span.ub).dropLast, x ≤ ([10, 20] : List ℚ).getLastD 0)) ∧
    ((∃ k, (resample (fromSpans fixtureSpans) [10, 20]).getLast? =
        some (k, (fromSpans fixtureSpans).count)) ∧
      ((resample (fromSpans fixtureSpans) [10, 20]).map Prod.fst).Pairwise
        (fun a b => a < b)) :=
  ⟨⟨by decide, by decide, by decide, by decide, by decide, by decide⟩,
    c1_resample_final_value_eq_count fixtureSpans [10, 20] (by decide) (by decide)
      (by decide) (by decide) (by decide) (by decide)⟩

/-- C2: evaluation of the code at the failing input. Spans (0,10,5),
(10,20,5), (20,30,5), (30,40,5) give cumulative buckets
`{10: 5, 20: 10, 30: 15, 40: 20}` with `totalCount = 20`; resampling into
the single bound `[10]` exhausts the new bounds with the buckets 30 and 40
still unprocessed, and the loop breaks after folding in only bucket 20:
the result is `{10: 5, +Inf: 10}`, silently dropping the 10 observations
above 20 instead of flushing them into `+Inf` (which the claim — and the
code's own comment `"dump the remainder into infinity"` — would require to
read `{10: 5, +Inf: 20}`). -/
theorem c2_exhausted_bounds_drop_mass :
    resample (fromSpans [⟨0, 10, 5⟩, ⟨10, 20, 5⟩, ⟨20, 30, 5⟩, ⟨30, 40, 5⟩]) [10] =
        [(((10 : ℚ) : WithTop ℚ), 5), ((⊤ : WithTop ℚ), 10)] ∧
      (fromSpans [⟨0, 10, 5⟩, ⟨10, 20, 5⟩, ⟨20, 30, 5⟩, ⟨30, 40, 5⟩]).count = 20 := by
  refine ⟨by decide, by decide⟩
/-- C3: the tie-break rule of the `resample` cursor. For an accumulator with
two buckets `u1 < u2`:
* resampling into `[u2]` — the single new bound *equal* to the next old
  upper bound seen from the first bucket — does **not** advance the cursor at
  the first bucket (the comparison is the strict `oldUpperBounds[i+1] >
  newUpperBounds[idx]`), so the second bucket is still counted under `u2`
  and the whole mass `v1 + v2` lands there;
* resampling into `[b]` with `b < u2` — the next old upper bound strictly
  exceeding the current new bound — advances the cursor after flushing
  `v1`, and the remainder lands in `+Inf`. -/
theorem c3_cursor_advance_iff_strict (l1 l2 u1 u2 : ℚ) (v1 v2 : Nat)
    (h12 : u1 < u2) (hov : v1 + v2 < U) :
    resample (fromSpans [⟨l1, u1, v1⟩, ⟨l2, u2, v2⟩]) [u2] =
        [(((u2 : ℚ) : WithTop ℚ), v1 + v2)] ∧
      ∀ b : ℚ, b < u2 →
        resample (fromSpans [⟨l1, u1, v1⟩, ⟨l2, u2, v2⟩]) [b] =
          [(((b : ℚ) : WithTop ℚ), v1), ((⊤ : WithTop ℚ), v1 + v2)] := by
  have hasc : (([⟨l1, u1, v1⟩, ⟨l2, u2, v2⟩] : List Span).map Span.ub).Pairwise
      (fun a b => a < b) := by
    simp [h12]
  have hov2 : spTotal [⟨l1, u1, v1⟩, ⟨l2, u2, v2⟩] < U := by
    simp only [spTotal, List.map_cons, List.map_nil, List.sum_cons, List.sum_nil]
    omega
  constructor
  · rw [resample_fromSpans_eq_dloop _ _ hasc hov2]
    simp only [List.map_cons, List.map_nil]
    rw [dloop_cons_cons, if_neg (by simp), if_neg (by simp)]
    rw [dloop_single, if_neg (by simp)]
    simp
  · intro b hb
    rw [resample_fromSpans_eq_dloop _ _ hasc hov2]
    simp only [List.map_cons, List.map_nil]
    rw [dloop_cons_cons, if_neg (by simp), if_pos (by simpa using hb)]
    rw [dloop_single, if_pos (by simp)]
    simp

theorem c3_witness :
    ((10 : ℚ) < 20 ∧ 5 + 10 < U) ∧
    resample (fromSpans [⟨0, 10, 5⟩, ⟨10, 20, 10⟩]) [20] =
        [(((20 : ℚ) : WithTop ℚ), 15)] ∧
    resample (fromSpans [⟨0, 10, 5⟩, ⟨10, 20, 10⟩]) [10] =
        [(((10 : ℚ) : WithTop ℚ), 5), ((⊤ : WithTop ℚ), 15)] :=
  ⟨⟨by decide, by decide⟩,
    (c3_cursor_advance_iff_strict 0 10 10 20 5 10 (by decide) (by decide)).1,
    (c3_cursor_advance_iff_strict 0 10 10 20 5 10 (by decide) (by decide)).2 10 (by decide)⟩
unseal Rat.add Rat.mul Rat.inv in
/-- C5: the accumulation scenario of `histogram_test.go` (`TestHistogram`,
case "simple"): spans (0,10,5), (10,20,10), (20,25,5) produce buckets
`{10: 5, 20: 15, 25: 20}`, count 20 and sum `287.5 = 575/2`; and in general
each `addReadings` call raises the sum estimate by exactly
`value * ((lowerBound + upperBound) / 2)`, the span's count times its
midpoint. -/
theorem c5_concrete_accumulation :
    fromSpans [⟨0, 10, 5⟩, ⟨10, 20, 10⟩, ⟨20, 25, 5⟩] =
        ⟨[], [(10, 5), (20, 15), (25, 20)], 575 / 2, 20⟩ ∧
      ∀ (h : Histogram) (lb ub : ℚ) (v : Nat),
        (addReadings h lb ub v).sum = h.sum + (v : ℚ) * ((lb + ub) / 2) :=
  ⟨by decide, fun h lb ub v => rfl⟩

/-- C6 (counterexample): the new bounds [10, 15, 20] are an ascending
superset of the accumulator's existing bounds {10, 20} (cumulative counts
{10: 5, 20: 15}), yet the resampled map is `{10: 5, 15: 15}`: the cursor
advances at most once per old bucket, so the cumulative count 15 is filed
under the interleaved bound 15 and the existing bound 20 gets no entry at
all — the original bucket counts are not reproduced. -/
theorem c6_superset_counterexample :
    resample (fromSpans [⟨0, 10, 5⟩, ⟨10, 20, 10⟩]) [10, 15, 20] =
        [(((10 : ℚ) : WithTop ℚ), 5), (((15 : ℚ) : WithTop ℚ), 15)] ∧
      lookupW (resample (fromSpans [⟨0, 10, 5⟩, ⟨10, 20, 10⟩]) [10, 15, 20])
          ((20 : ℚ) : WithTop ℚ) = none ∧
      lookupA (fromSpans [⟨0, 10, 5⟩, ⟨10, 20, 10⟩]).buckets 20 = some 15 := by
  refine ⟨by decide, by decide, by decide⟩

/-- C6 (amended): resampling into exactly the accumulator's own (strictly
ascending) upper bounds reproduces the original cumulative bucket map
entry for entry, with no `+Infinity` entry added; for a proper superset that
interleaves new bounds between existing ones the counts are not reproduced
(see the counterexample). -/
theorem c6_resample_own_bounds_identity (sp : List Span)
    (hasc : (sp.map Span.ub).Pairwise (fun a b => a < b))
    (hov : spTotal sp < U) :
    resample (fromSpans sp) (sp.map Span.ub) =
      (fromSpans sp).buckets.map (fun p => ((p.1 : WithTop ℚ), p.2)) := by
  have hnd : (sp.map Span.ub).Nodup := hasc.imp (fun h => ne_of_lt h)
  rw [resample_fromSpans_eq_dloop sp _ hasc hov]
  have hkeys : ((sp.map (fun s => (s.ub, s.cnt))).map Prod.fst) = sp.map Span.ub := by
    simp
  have hid := dloop_self (sp.map (fun s => (s.ub, s.cnt))) (by rw [hkeys]; exact hasc)
    (sp.map (fun s => (s.ub, s.cnt))) [] (List.nil_append _)
  simp only [List.map_nil, List.sum_nil, List.length_nil] at hid
  rw [hkeys] at hid
  rw [hid, cumPairs_cumList sp 0, fromSpans_eq sp hnd hov]

theorem c6_witness :
    ((([⟨0, 10, 5⟩, ⟨10, 20, 10⟩] : List Span).map Span.ub).Pairwise (fun a b => a < b) ∧
      spTotal [⟨0, 10, 5⟩, ⟨10, 20, 10⟩] < U) ∧
    resample (fromSpans [⟨0, 10, 5⟩, ⟨10, 20, 10⟩])
        (([⟨0, 10, 5⟩, ⟨10, 20, 10⟩] : List Span).map Span.ub) =
      (fromSpans [⟨0, 10, 5⟩, ⟨10, 20, 10⟩]).buckets.map (fun p => ((p.1 : WithTop ℚ), p.2)) :=
  ⟨⟨by decide, by decide⟩,
    c6_resample_own_bounds_identity [⟨0, 10, 5⟩, ⟨10, 20, 10⟩] (by decide) (by decide)⟩
/-- A regexp model that matches every key, with no named capture groups. -/
def expAll : Rexp :=
  { matchString := fun _ => true, findSubmatch := fun s => some [s],
    subexpNames := ["".toList] }

/-- A histogram descriptor whose `multiplier` field is left unset in the
JSON document (Go zero value 0). -/
def cfgHistUnset : MetricConfig :=
  { Labels := [], type := MetricType.histogram, Multiplier := 0, Singleton := false,
    ResampleBuckets := [] }

/-- A gauge descriptor whose `multiplier` field is left unset. -/
def cfgGaugeUnset : MetricConfig :=
  { Labels := [], type := MetricType.gauge, Multiplier := 0, Singleton := false,
    ResampleBuckets := [] }

def statHistUnset : InternalStat := mkInternalStat "kv_hist".toList cfgHistUnset expAll

def statGaugeUnset : InternalStat := mkInternalStat "kv_val".toList cfgGaugeUnset expAll

unseal Rat.add Rat.mul Rat.inv in
/-- C4: evaluation at the failing input. For a descriptor with `Multiplier`
unset, `updateMetricSet` does default the lowercase `multiplier` field to 1
and `mapValueStat` emits the parsed value unchanged (the claim's
non-histogram half holds). But `mapHistogramStat` scales the parsed bucket
bounds by the **raw** `Multiplier` field — still 0 — instead of the
defaulted one: the key `cmd_get_500,1000` (bounds 0.0005s and 0.001s after
unit conversion) is accumulated with both bounds `0.0005 * 0 = 0` and
`0.001 * 0 = 0`, not with the parsed bounds, contradicting the field's own
doc comment ("If unset, defaults to 1 (no change)"). -/
theorem c4_unset_multiplier_collapses_histogram_bounds :
    statGaugeUnset.multiplier = 1 ∧
      mapValueStat statGaugeUnset false "b".toList [("curr_items".toList, "42".toList)] =
        ([Sample.value "kv_val".toList 42 []], MStatus.okS) ∧
      statHistUnset.Multiplier = 0 ∧
      mapHistogramStat statHistUnset false "b".toList
          [("cmd_get_500,1000".toList, "5".toList)] =
        ([Sample.histo "kv_hist".toList [(((0 : ℚ) : WithTop ℚ), 5)] 0 5 []], MStatus.okS) ∧
      findBounds "cmd_get_500,1000".toList = GoResult.ok (500000, 1000000) ∧
      nsToSec 500000 = 1 / 2000 ∧
      (1 / 2000 : ℚ) ≠ 0 := by
  refine ⟨by decide, by decide, by decide, by decide, by decide, by decide, by decide⟩

/-- The stat under which C7's histogram parse failures are exercised
(matches every key; histogram type). -/
def statHist7 : InternalStat := mkInternalStat "kv_h7".toList cfgHistUnset expAll

unseal Rat.add Rat.mul Rat.inv in
/-- C7 (counterexample): when **two** keys match a histogram descriptor and
one of them (`a_x,2`) has a bound suffix that fails float parsing,
`mapHistogramStat` does not return the `ParseError`: the `sort.Slice`
comparator calls `findBounds` on every matched key and `panic(err)`s,
aborting the whole collection cycle. -/
theorem c7_two_matched_keys_panic_counterexample :
    findBounds "a_x,2".toList = GoResult.err ∧
      mapHistogramStat statHist7 false "b".toList
          [("a_1,2".toList, "3".toList), ("a_x,2".toList, "4".toList)] =
        ([], MStatus.panicS) := by
  refine ⟨by decide, by decide⟩

/-- C7 (amended): when the numeric portion of a histogram stat key fails
float parsing, the `ParseError` is returned to the caller and the caller
skips that histogram with a warning — the cycle continues with the
remaining descriptors — *provided the failing key is the descriptor's only
matched key* (so that the error surfaces in the accumulation loop rather
than in the `sort.Slice` comparator), the key holds the underscore that
delimits the histogram family name (the documented
`<prefix>_<lower>,<upper>` shape; without it `statName :=
key[:lastUnderscoreIdx]` is a slice-bounds panic before `findBounds` even
runs in the loop), and the descriptor's labels resolve; with two or more
matched keys the comparator panics on the failure and the whole collection
cycle aborts (see the counterexample). -/
theorem c7_single_key_parse_error_skips (stat : InternalStat) (vals : List (Str × Str))
    (k : Str)
    (htype : stat.type = MetricType.histogram)
    (hmatch : (vals.map Prod.fst).filter stat.exp.matchString = [k])
    (hus : '_' ∈ k)
    (herr : findBounds k = GoResult.err)
    (hres : ∀ fakeCollections bucket,
      (resolveLabelValues fakeCollections bucket stat
        ((stat.exp.findSubmatch k).getD [])).isSome = true) :
    (∀ fakeCollections bucket,
        mapHistogramStat stat fakeCollections bucket vals = ([], MStatus.errS)) ∧
      ∀ fakeCollections bucket rest singletons,
        processStatGroup fakeCollections bucket vals singletons (stat :: rest) =
          processStatGroup fakeCollections bucket vals singletons rest := by
  have hmap : ∀ fakeCollections bucket,
      mapHistogramStat stat fakeCollections bucket vals = ([], MStatus.errS) := by
    intro fakeCollections bucket
    rw [mapHistogramStat, hmatch]
    rw [if_neg (by simp)]
    rw [if_neg (by simp [herr, GoResult.isOk])]
    have hsort : List.insertionSort (fun k1 k2 => fbLb k1 ≤ fbLb k2) [k] = [k] := rfl
    rw [hsort]
    obtain ⟨lvs, hlvs⟩ := Option.isSome_iff_exists.mp (hres fakeCollections bucket)
    have hloop : histLoop stat fakeCollections bucket vals [k] [] = GoResult.err := by
      simp [histLoop, histStep, beforeLastUnderscore, if_pos hus, histFor, hlvs, herr]
    simp only [hloop]
  refine ⟨hmap, ?_⟩
  intro fakeCollections bucket rest singletons
  rw [processStatGroup]
  by_cases hskip : stat.Singleton = true ∧ stat.name ∈ singletons
  · rw [if_pos hskip]
  · rw [if_neg hskip, htype, hmap]
    rcases hres : processStatGroup fakeCollections bucket vals singletons rest with ⟨s2, g2, p2⟩
    simp
theorem c7_witness :
    (statHist7.type = MetricType.histogram ∧
      (([("a_x,2".toList, "4".toList)].map Prod.fst).filter statHist7.exp.matchString =
        ["a_x,2".toList]) ∧
      '_' ∈ "a_x,2".toList ∧
      findBounds "a_x,2".toList = GoResult.err) ∧
    mapHistogramStat statHist7 false "b".toList [("a_x,2".toList, "4".toList)] =
        ([], MStatus.errS) ∧
      processStatGroup false "b".toList [("a_x,2".toList, "4".toList)] [] [statHist7] =
        processStatGroup false "b".toList [("a_x,2".toList, "4".toList)] [] [] :=
  ⟨⟨by decide, by decide, by decide, by decide⟩,
    (c7_single_key_parse_error_skips statHist7 [("a_x,2".toList, "4".toList)]
      "a_x,2".toList (by decide) (by decide) (by decide) (by decide)
      (fun _ _ => rfl)).1 false "b".toList,
    (c7_single_key_parse_error_skips statHist7 [("a_x,2".toList, "4".toList)]
      "a_x,2".toList (by decide) (by decide) (by decide) (by decide)
      (fun _ _ => rfl)).2 false "b".toList [] []⟩

/-- The regexp model of a pattern with one named group `result` (and no
group named `op`): `SubexpNames() = ["", "result"]`. -/
def rexpResult : Rexp :=
  { matchString := fun _ => true, findSubmatch := fun s => some [s, []],
    subexpNames := ["".toList, "result".toList] }

/-- A descriptor asking for label `op`, which has no matching capture group
in `rexpResult`. -/
def statC8 : InternalStat :=
  mkInternalStat "kv_ops".toList
    { Labels := ["op".toList], type := MetricType.gauge, Multiplier := 0,
      Singleton := false, ResampleBuckets := [] } rexpResult

/-- C8: evaluation at the failing input. For the configured label `op` with
no samely-named capture group, `SubexpIndex` is `-1`; `resolveLabelValues`
logs the warning and then evaluates `match[-1]`, an index-out-of-range
runtime panic (embedded as `none`), so the whole `mapValueStat` pass — and
with it the collection cycle — aborts instead of emitting an empty label
value. (The claim matches the code's evident intent: the warning itself,
and the sibling `scope`/`collection` branch which guards the same index and
falls back to the empty string.) -/
theorem c8_missing_capture_group_panics :
    subexpIndex statC8.exp.subexpNames "op".toList = none ∧
      resolveLabelValues false "b".toList statC8 ["kv_ops".toList, "hit".toList] = none ∧
      mapValueStat statC8 false "b".toList [("kv_ops".toList, "42".toList)] =
        ([], MStatus.panicS) ∧
      processStatGroup false "b".toList [("kv_ops".toList, "42".toList)] [] [statC8] =
        ([], [], true) := by
  refine ⟨by decide, by decide, by decide, by decide⟩

/-- C10: `findBounds`' failure modes. For every stat key whose suffix after
the last underscore holds no comma, `IndexRune` gives `-1` and the slice
expression `bucketBounds[:-1]` raises a runtime slice-bounds panic before
any parsing — no `error` is returned. An `error` return happens exactly
when the comma is present and one of the two comma-separated parts fails
float parsing. -/
theorem c10_findBounds_no_comma_panics :
    (∀ key : Str, ',' ∉ afterLastUnderscore key → findBounds key = GoResult.panicked) ∧
      ∀ key : Str, findBounds key = GoResult.err →
        ',' ∈ afterLastUnderscore key ∧
          (parseFloat (beforeChar ',' (afterLastUnderscore key)) = none ∨
            parseFloat (afterChar ',' (afterLastUnderscore key)) = none) := by
  constructor
  · intro key hnc
    rw [findBounds]
    simp only [if_neg hnc]
  · intro key herr
    rw [findBounds] at herr
    by_cases hc : ',' ∈ afterLastUnderscore key
    · refine ⟨hc, ?_⟩
      rw [if_pos hc] at herr
      rcases h1 : parseFloat (beforeChar ',' (afterLastUnderscore key)) with _ | lb
      · exact Or.inl rfl
      · rw [h1] at herr
        rcases h2 : parseFloat (afterChar ',' (afterLastUnderscore key)) with _ | ub
        · exact Or.inr rfl
        · rw [h2] at herr
          simp at herr
    · rw [if_neg hc] at herr
      simp at herr

theorem c10_witness :
    (',' ∉ afterLastUnderscore "cmd_get_500".toList ∧
      findBounds "cmd_get_500".toList = GoResult.panicked) ∧
    (findBounds "cmd_get_x,1000".toList = GoResult.err ∧
      (',' ∈ afterLastUnderscore "cmd_get_x,1000".toList ∧
        (parseFloat (beforeChar ',' (afterLastUnderscore "cmd_get_x,1000".toList)) = none ∨
          parseFloat (afterChar ',' (afterLastUnderscore "cmd_get_x,1000".toList)) = none))) :=
  ⟨⟨by decide, (c10_findBounds_no_comma_panics).1 "cmd_get_500".toList (by decide)⟩,
    ⟨by decide, (c10_findBounds_no_comma_panics).2 "cmd_get_x,1000".toList (by decide)⟩⟩
/-! ## Singleton accounting (C9) -/

theorem length_filter_le_of_imp {α : Type} (p q : α → Bool)
    (himp : ∀ a, p a = true → q a = true) :
    ∀ l : List α, (l.filter p).length ≤ (l.filter q).length := by
  intro l
  induction l with
  | nil => simp
  | cons a l ih =>
    by_cases hp : p a = true
    · rw [List.filter_cons_of_pos hp, List.filter_cons_of_pos (himp a hp)]
      simpa using ih
    · rw [List.filter_cons_of_neg (by simpa using hp)]
      by_cases hq : q a = true
      · rw [List.filter_cons_of_pos hq]
        exact le_trans ih (by simp)
      · rw [List.filter_cons_of_neg (by simpa using hq)]
        exact ih

/-- The number of keys `mapValueStat` iterates over (non-`nil`
`FindStringSubmatch`). -/
def countSub (stat : InternalStat) (vals : List (Str × Str)) : Nat :=
  ((vals.map Prod.fst).filter (fun k => (stat.exp.findSubmatch k).isSome)).length

theorem countSub_le_countMatched (stat : InternalStat) (vals : List (Str × Str)) :
    countSub stat vals ≤ countMatched stat vals := by
  refine length_filter_le_of_imp _ _ ?_ _
  intro a ha
  simp only [Bool.or_eq_true]
  exact Or.inl ha

theorem countHist_le_countMatched (stat : InternalStat) (vals : List (Str × Str)) :
    ((vals.map Prod.fst).filter stat.exp.matchString).length ≤ countMatched stat vals := by
  refine length_filter_le_of_imp _ _ ?_ _
  intro a ha
  simp only [Bool.or_eq_true]
  exact Or.inr ha

theorem mapValueStatGo_spec (stat : InternalStat) (fakeCollections : Bool) (bucket : Str) :
    ∀ (vals : List (Str × Str)) (acc : List Sample),
      ∃ extra, (mapValueStatGo stat fakeCollections bucket vals acc).1 = acc ++ extra ∧
        (∀ s ∈ extra, sampleName s = stat.name) ∧
        extra.length +
            (if (mapValueStatGo stat fakeCollections bucket vals acc).2 = MStatus.okS
              then 0 else 1) ≤
          ((vals.map Prod.fst).filter (fun k => (stat.exp.findSubmatch k).isSome)).length := by
  intro vals
  induction vals with
  | nil =>
    intro acc
    exact ⟨[], by simp [mapValueStatGo], by simp, by simp [mapValueStatGo]⟩
  | cons hd rest ih =>
    intro acc
    obtain ⟨k, valStr⟩ := hd
    rcases hsub : stat.exp.findSubmatch k with _ | mt
    · obtain ⟨extra, h1, h2, h3⟩ := ih acc
      refine ⟨extra, ?_, h2, ?_⟩
      · simp only [mapValueStatGo, hsub]
        exact h1
      · simp only [mapValueStatGo, hsub]
        simpa [hsub] using h3
    · rcases hpf : parseFloat valStr with _ | val
      · refine ⟨[], ?_, by simp, ?_⟩
        · simp only [mapValueStatGo, hsub, hpf]
          simp
        · simp only [mapValueStatGo, hsub, hpf]
          simp [hsub]
      · rcases hrlv : resolveLabelValues fakeCollections bucket stat mt with _ | lvs
        · refine ⟨[], ?_, by simp, ?_⟩
          · simp only [mapValueStatGo, hsub, hpf, hrlv]
            simp
          · simp only [mapValueStatGo, hsub, hpf, hrlv]
            simp [hsub]
        · obtain ⟨extra, h1, h2, h3⟩ :=
            ih (acc ++ [Sample.value stat.name (val * stat.multiplier) lvs])
          refine ⟨Sample.value stat.name (val * stat.multiplier) lvs :: extra, ?_, ?_, ?_⟩
          · simp only [mapValueStatGo, hsub, hpf, hrlv]
            rw [h1]
            simp
          · intro s hs
            rcases List.mem_cons.mp hs with rfl | hs2
            · rfl
            · exact h2 s hs2
          · simp only [mapValueStatGo, hsub, hpf, hrlv]
            have hfc : List.filter (fun k2 => (stat.exp.findSubmatch k2).isSome)
                (k :: List.map Prod.fst rest) =
                k :: List.filter (fun k2 => (stat.exp.findSubmatch k2).isSome)
                  (List.map Prod.fst rest) := by
              simp [List.filter_cons, hsub]
            simp only [List.map_cons, hfc, List.length_cons]
            omega
            
theorem histLoop_ok_length (stat : InternalStat) (fakeCollections : Bool) (bucket : Str)
    (vals : List (Str × Str)) :
    ∀ (keys : List Str) (histos res : List (Str × Histogram)),
      histLoop stat fakeCollections bucket vals keys histos = GoResult.ok res →
      res.length ≤ histos.length + keys.length := by
  intro keys
  induction keys with
  | nil =>
    intro histos res h
    simp only [histLoop] at h
    cases h
    simp
  | cons k rest ih =>
    intro histos res h
    simp only [histLoop] at h
    rcases hstep : histStep stat fakeCollections bucket vals histos k with h1 | _ | _
    · rw [hstep] at h
      have hlen : h1.length ≤ histos.length + 1 := by
        rw [histStep] at hstep
        rcases hsn : beforeLastUnderscore k with _ | statName
        · rw [hsn] at hstep
          cases hstep
        · rw [hsn] at hstep
          dsimp only at hstep
          rcases hopt : histFor stat fakeCollections bucket histos statName k with _ | histo
          · rw [hopt] at hstep
            cases hstep
          · rw [hopt] at hstep
            rcases hfb : findBounds k with b | _ | _
            · rw [hfb] at hstep
              obtain ⟨lbNs, ubNs⟩ := b
              rcases hpu : parseUint (((vals.find? (fun p => p.1 = k)).map Prod.snd).getD [])
                with _ | v
              · rw [hpu] at hstep
                cases hstep
              · rw [hpu] at hstep
                simp only [GoResult.ok.injEq] at hstep
                by_cases hfind : ((histos.find? (fun p => p.1 = statName)).isSome)
                · rw [← hstep, if_pos hfind]
                  simp
                · rw [← hstep, if_neg hfind]
                  simp
            · rw [hfb] at hstep
              cases hstep
            · rw [hfb] at hstep
              cases hstep
      have := ih h1 res h
      simp only [List.length_cons] at *
      omega
    · rw [hstep] at h
      cases h
    · rw [hstep] at h
      cases h

theorem mapHistogramStat_spec (stat : InternalStat) (fakeCollections : Bool) (bucket : Str)
    (vals : List (Str × Str)) :
    (∀ s ∈ (mapHistogramStat stat fakeCollections bucket vals).1,
        sampleName s = stat.name) ∧
      ((mapHistogramStat stat fakeCollections bucket vals).2 ≠ MStatus.okS →
        (mapHistogramStat stat fakeCollections bucket vals).1 = []) ∧
      (mapHistogramStat stat fakeCollections bucket vals).1.length ≤
        ((vals.map Prod.fst).filter stat.exp.matchString).length := by
  rw [mapHistogramStat]
  by_cases hempty : (vals.map Prod.fst).filter stat.exp.matchString = []
  · rw [if_pos hempty]
    refine ⟨by simp, by simp, by simp⟩
  · rw [if_neg hempty]
    by_cases hpanic : 2 ≤ ((vals.map Prod.fst).filter stat.exp.matchString).length ∧
        ¬ ∀ k ∈ (vals.map Prod.fst).filter stat.exp.matchString,
          (findBounds k).isOk = true
    · rw [if_pos hpanic]
      refine ⟨by simp, by simp, by simp⟩
    · rw [if_neg hpanic]
      rcases hloop : histLoop stat fakeCollections bucket vals
          (List.insertionSort (fun k1 k2 => fbLb k1 ≤ fbLb k2)
            ((vals.map Prod.fst).filter stat.exp.matchString)) [] with histos | _ | _
      · simp only [hloop]
        refine ⟨?_, by simp, ?_⟩
        · intro s hs
          obtain ⟨p, _, rfl⟩ := List.mem_map.mp hs
          rfl
        · have h1 := histLoop_ok_length stat fakeCollections bucket vals _ [] histos hloop
          have h2 : (List.insertionSort (fun k1 k2 => fbLb k1 ≤ fbLb k2)
              ((vals.map Prod.fst).filter stat.exp.matchString)).length =
              ((vals.map Prod.fst).filter stat.exp.matchString).length :=
            List.length_insertionSort _ _
          simp only [List.length_nil, Nat.zero_add, h2] at h1
          simp only [List.length_map]
          omega
      · simp only [hloop]
        refine ⟨by simp, by simp, by simp⟩
      · simp only [hloop]
        refine ⟨by simp, by simp, by simp⟩
/-- The mapper `processStatGroup` dispatches to, by metric type. -/
def runMapper (stat : InternalStat) (fakeCollections : Bool) (bucket : Str)
    (vals : List (Str × Str)) : List Sample × MStatus :=
  match stat.type with
  | MetricType.histogram => mapHistogramStat stat fakeCollections bucket vals
  | _ => mapValueStat stat fakeCollections bucket vals

theorem processStatGroup_eq_runMapper (fakeCollections : Bool) (bucket : Str)
    (vals : List (Str × Str)) (singletons : List Str) (stat : InternalStat)
    (rest : List InternalStat) :
    processStatGroup fakeCollections bucket vals singletons (stat :: rest) =
      if stat.Singleton = true ∧ stat.name ∈ singletons then
        processStatGroup fakeCollections bucket vals singletons rest
      else
        match (runMapper stat fakeCollections bucket vals).2 with
        | MStatus.panicS => ((runMapper stat fakeCollections bucket vals).1, singletons, true)
        | MStatus.errS =>
          ((runMapper stat fakeCollections bucket vals).1 ++
              (processStatGroup fakeCollections bucket vals singletons rest).1,
            (processStatGroup fakeCollections bucket vals singletons rest).2)
        | MStatus.okS =>
          ((runMapper stat fakeCollections bucket vals).1 ++
              (processStatGroup fakeCollections bucket vals
                (if stat.Singleton then stat.name :: singletons else singletons) rest).1,
            (processStatGroup fakeCollections bucket vals
              (if stat.Singleton then stat.name :: singletons else singletons) rest).2) := by
  rw [processStatGroup, runMapper]

/-- The per-mapper sample accounting needed for the singleton claim: every
sample is emitted under the stat's own name; a non-`ok` status with at most
one matched key means nothing was emitted; at most one matched key means at
most one sample. -/
theorem runMapper_spec (stat : InternalStat) (fakeCollections : Bool) (bucket : Str)
    (vals : List (Str × Str)) :
    (∀ s ∈ (runMapper stat fakeCollections bucket vals).1, sampleName s = stat.name) ∧
      (countMatched stat vals ≤ 1 →
        (runMapper stat fakeCollections bucket vals).1.length ≤ 1 ∧
        ((runMapper stat fakeCollections bucket vals).2 ≠ MStatus.okS →
          (runMapper stat fakeCollections bucket vals).1 = [])) := by
  rw [runMapper]
  rcases htype : stat.type
  case histogram =>
    obtain ⟨h1, h2, h3⟩ := mapHistogramStat_spec stat fakeCollections bucket vals
    exact ⟨h1, fun hm => ⟨le_trans h3 (le_trans (countHist_le_countMatched stat vals) hm),
      h2⟩⟩
  all_goals {
    obtain ⟨extra, h1, h2, h3⟩ := mapValueStatGo_spec stat fakeCollections bucket vals []
    rw [List.nil_append] at h1
    constructor
    · intro s hs
      rw [mapValueStat] at *
      rw [h1] at hs
      exact h2 s hs
    · intro hm
      have hcs : countSub stat vals ≤ 1 :=
        le_trans (countSub_le_countMatched stat vals) hm
      rw [countSub] at hcs
      constructor
      · rw [mapValueStat, h1]
        omega
      · intro hnok
        rw [mapValueStat] at hnok ⊢
        rw [h1]
        rw [if_neg hnok] at h3
        have : extra.length = 0 := by omega
        exact List.eq_nil_of_length_eq_zero this
  }
theorem countName_append (n : Str) (a b : List Sample) :
    countName n (a ++ b) = countName n a + countName n b := by
  simp [countName, List.countP_append]

theorem countName_eq_zero_of_ne (n : Str) (smps : List Sample) (m : Str)
    (hname : ∀ s ∈ smps, sampleName s = m) (hne : m ≠ n) : countName n smps = 0 := by
  rw [countName, List.countP_eq_zero]
  intro s hs
  simp only [decide_eq_true_eq]
  rw [hname s hs]
  exact hne

theorem countName_le_length (n : Str) (smps : List Sample) :
    countName n smps ≤ smps.length :=
  List.countP_le_length _

/-- Walking one group's stats: (i) the singleton set only grows; (ii) once
the name `n` is recorded, no further sample named `n` is emitted (under the
hypothesis that every stat named `n` is a singleton); (iii) before it is
recorded, at most one sample named `n` is emitted, and if one is, `n` ends
up recorded. -/
theorem processStatGroup_spec (n : Str) (fakeCollections : Bool) (bucket : Str)
    (vals : List (Str × Str)) :
    ∀ (stats : List InternalStat) (singletons : List Str),
      (∀ s ∈ stats, s.name = n → s.Singleton = true) →
      (∀ s ∈ stats, s.name = n → countMatched s vals ≤ 1) →
      (∀ x ∈ singletons,
          x ∈ (processStatGroup fakeCollections bucket vals singletons stats).2.1) ∧
        (n ∈ singletons →
          countName n (processStatGroup fakeCollections bucket vals singletons stats).1 = 0) ∧
        (n ∉ singletons →
          countName n (processStatGroup fakeCollections bucket vals singletons stats).1 ≤ 1 ∧
            (1 ≤ countName n
                (processStatGroup fakeCollections bucket vals singletons stats).1 →
              n ∈ (processStatGroup fakeCollections bucket vals singletons stats).2.1)) := by
  intro stats
  induction stats with
  | nil =>
    intro singletons _ _
    refine ⟨fun x hx => hx, fun _ => rfl, fun _ => ⟨by simp [processStatGroup, countName], ?_⟩⟩
    intro h1
    simp [processStatGroup, countName] at h1
  | cons stat rest ih =>
    intro singletons hS hM
    have hSr : ∀ s ∈ rest, s.name = n → s.Singleton = true := by
      intro s hs
      exact hS s (List.mem_cons_of_mem stat hs)
    have hMr : ∀ s ∈ rest, s.name = n → countMatched s vals ≤ 1 := by
      intro s hs
      exact hM s (List.mem_cons_of_mem stat hs)
    obtain ⟨hmapname, hmapcnt⟩ := runMapper_spec stat fakeCollections bucket vals
    rw [processStatGroup_eq_runMapper]
    by_cases hskip : stat.Singleton = true ∧ stat.name ∈ singletons
    · rw [if_pos hskip]
      exact ih singletons hSr hMr
    · rw [if_neg hskip]
      have hstatcount : stat.name ≠ n →
          countName n (runMapper stat fakeCollections bucket vals).1 = 0 := by
        intro hne
        exact countName_eq_zero_of_ne n _ stat.name hmapname hne
      rcases hst : (runMapper stat fakeCollections bucket vals).2
      · -- okS
        simp only []
        by_cases hname : stat.name = n
        · have hsing : stat.Singleton = true := hS stat (by simp) hname
          have hnotin : n ∉ singletons := by
            intro hin
            exact hskip ⟨hsing, by rw [hname]; exact hin⟩
          have hm1 : countMatched stat vals ≤ 1 := hM stat (by simp) hname
          obtain ⟨hlen1, _⟩ := hmapcnt hm1
          rw [hsing, if_pos rfl]
          obtain ⟨hsub, hzero, _⟩ := ih (stat.name :: singletons) hSr hMr
          have hinB : n ∈ (processStatGroup fakeCollections bucket vals
              (stat.name :: singletons) rest).2.1 :=
            hsub n (by rw [hname]; exact List.mem_cons_self _ _)
          rw [countName_append, hzero (by rw [hname]; exact List.mem_cons_self _ _)]
          refine ⟨?_, fun hin => absurd hin hnotin, fun _ => ?_⟩
          · intro x hx
            exact hsub x (List.mem_cons_of_mem _ hx)
          · have := countName_le_length n (runMapper stat fakeCollections bucket vals).1
            exact ⟨by omega, fun _ => hinB⟩
        · rw [countName_append, hstatcount hname, Nat.zero_add]
          by_cases hsing : stat.Singleton = true
          · rw [hsing, if_pos rfl]
            obtain ⟨hsub, hzero, hpos⟩ := ih (stat.name :: singletons) hSr hMr
            refine ⟨?_, ?_, ?_⟩
            · intro x hx
              exact hsub x (List.mem_cons_of_mem _ hx)
            · intro hin
              exact hzero (List.mem_cons_of_mem _ hin)
            · intro hnin
              have hnin2 : n ∉ stat.name :: singletons := by
                intro h
                rcases List.mem_cons.mp h with h1 | h2
                · exact hname h1.symm
                · exact hnin h2
              exact hpos hnin2
          · have : stat.Singleton = false := by
              cases h : stat.Singleton
              · rfl
              · exact absurd h hsing
            rw [this]
            simp only [if_neg (by simp : ¬ (false = true))]
            exact ih singletons hSr hMr
      
      · -- errS
        simp only []
        obtain ⟨hsub, hzero, hpos⟩ := ih singletons hSr hMr
        rw [countName_append]
        by_cases hname : stat.name = n
        · have hsing : stat.Singleton = true := hS stat (by simp) hname
          have hnotin : n ∉ singletons := by
            intro hin
            exact hskip ⟨hsing, by rw [hname]; exact hin⟩
          have hm1 : countMatched stat vals ≤ 1 := hM stat (by simp) hname
          obtain ⟨_, hempty⟩ := hmapcnt hm1
          rw [hempty (by rw [hst]; intro h; cases h)]
          refine ⟨hsub, fun hin => absurd hin hnotin, fun hnin => ?_⟩
          obtain ⟨h1, h2⟩ := hpos hnin
          simp only [countName, List.countP_nil, Nat.zero_add]
          exact ⟨h1, h2⟩
        · rw [hstatcount hname, Nat.zero_add]
          exact ⟨hsub, hzero, hpos⟩
      · -- panicS
        simp only []
        by_cases hname : stat.name = n
        · -- stat named n, singleton, not yet seen (else skip branch)
          have hsing : stat.Singleton = true := hS stat (by simp) hname
          have hnotin : n ∉ singletons := by
            intro hin
            exact hskip ⟨hsing, by rw [hname]; exact hin⟩
          have hm1 : countMatched stat vals ≤ 1 := hM stat (by simp) hname
          obtain ⟨_, hempty⟩ := hmapcnt hm1
          rw [hempty (by rw [hst]; intro h; cases h)]
          refine ⟨fun x hx => hx, fun hin => absurd (hname ▸ hin) (by rw [hname]; exact hnotin),
            fun _ => ⟨by simp [countName], by simp [countName]⟩⟩
        · refine ⟨fun x hx => hx, fun _ => hstatcount hname, fun hnin => ?_⟩
          rw [hstatcount hname]
          exact ⟨by omega, by intro h; omega⟩
theorem collectCycleGo_spec (n : Str) (fakeCollections : Bool) (stats : List InternalStat)
    (hS : ∀ s ∈ stats, s.name = n → s.Singleton = true) :
    ∀ (items : List (Str × List (Str × Str))) (singletons : List Str),
      (∀ s ∈ stats, s.name = n → ∀ it ∈ items, countMatched s it.2 ≤ 1) →
      (n ∈ singletons →
          countName n (collectCycleGo fakeCollections stats items singletons).1 = 0) ∧
        (n ∉ singletons →
          countName n (collectCycleGo fakeCollections stats items singletons).1 ≤ 1) := by
  intro items
  induction items with
  | nil =>
    intro singletons _
    exact ⟨fun _ => rfl, fun _ => by simp [collectCycleGo, countName]⟩
  | cons it rest ih =>
    intro singletons hM
    obtain ⟨bucket, vals⟩ := it
    have hMhead : ∀ s ∈ stats, s.name = n → countMatched s vals ≤ 1 := by
      intro s hs hn
      exact hM s hs hn (bucket, vals) (by simp)
    have hMrest : ∀ s ∈ stats, s.name = n → ∀ it2 ∈ rest, countMatched s it2.2 ≤ 1 := by
      intro s hs hn it2 hit2
      exact hM s hs hn it2 (List.mem_cons_of_mem _ hit2)
    obtain ⟨hsub, hzero, hpos⟩ := processStatGroup_spec n fakeCollections bucket vals
      stats singletons hS hMhead
    have hunfold : collectCycleGo fakeCollections stats ((bucket, vals) :: rest) singletons =
        if (processStatGroup fakeCollections bucket vals singletons stats).2.2 then
          ((processStatGroup fakeCollections bucket vals singletons stats).1, true)
        else
          ((processStatGroup fakeCollections bucket vals singletons stats).1 ++
            (collectCycleGo fakeCollections stats rest
              (processStatGroup fakeCollections bucket vals singletons stats).2.1).1,
            (collectCycleGo fakeCollections stats rest
              (processStatGroup fakeCollections bucket vals singletons stats).2.1).2) := by
      rw [collectCycleGo]
    rw [hunfold]
    by_cases hpan : (processStatGroup fakeCollections bucket vals singletons stats).2.2 = true
    · rw [if_pos hpan]
      constructor
      · intro hin
        exact hzero hin
      · intro hnin
        exact (hpos hnin).1
    · rw [if_neg hpan]
      obtain ⟨ihzero, ihpos⟩ := ih
        (processStatGroup fakeCollections bucket vals singletons stats).2.1 hMrest
      constructor
      · intro hin
        rw [countName_append, hzero hin, Nat.zero_add]
        exact ihzero (hsub n hin)
      · intro hnin
        rw [countName_append]
        obtain ⟨h1, h2⟩ := hpos hnin
        by_cases hc : 1 ≤ countName n
            (processStatGroup fakeCollections bucket vals singletons stats).1
        · rw [ihzero (h2 hc)]
          omega
        · by_cases hin2 : n ∈ (processStatGroup fakeCollections bucket vals singletons
              stats).2.1
          · rw [ihzero hin2]
            omega
          · have := ihpos hin2
            omega

/-- A gauge descriptor marked singleton, matching every key. -/
def statSingleton : InternalStat :=
  mkInternalStat "uptime".toList
    { Labels := [], type := MetricType.gauge, Multiplier := 0, Singleton := true,
      ResampleBuckets := [] } expAll

/-- C9 (counterexample): a singleton descriptor matched by **two** keys of a
single item's stat map produces two samples in one pass — `mapValueStat`
emits one sample per matched key and the singleton set only prevents later
passes, so "at most one sample" fails as stated. -/
theorem c9_two_samples_one_item_counterexample :
    countName "uptime".toList
      (collect false [statSingleton]
        [("b".toList, [("k1".toList, "1".toList), ("k2".toList, "2".toList)])]).1 = 2 := by
  decide

/-- C9 (amended): across an arbitrary number of items, a descriptor marked
singleton is processed in at most one emission pass — the tracking set is
created once per cycle and threaded through every item, never reset — and
therefore produces at most one sample *provided its pattern matches at most
one key in each item's stat map* (several matching keys in the first
processed item still produce several samples in that one pass, see the
counterexample). Stated for every name `n` whose descriptors are all
marked singleton. -/
theorem c9_singleton_at_most_one_sample (fakeCollections : Bool)
    (stats : List InternalStat) (items : List (Str × List (Str × Str))) (n : Str)
    (hS : ∀ s ∈ stats, s.name = n → s.Singleton = true)
    (hM : ∀ s ∈ stats, s.name = n → ∀ it ∈ items, countMatched s it.2 ≤ 1) :
    countName n (collect fakeCollections stats items).1 ≤ 1 := by
  rw [collect]
  exact (collectCycleGo_spec n fakeCollections stats hS items [] hM).2 (by simp)

theorem c9_witness :
    ((∀ s ∈ [statSingleton], s.name = "uptime".toList → s.Singleton = true) ∧
      (∀ s ∈ [statSingleton], s.name = "uptime".toList →
        ∀ it ∈ ([("b1".toList, [("k1".toList, "1".toList)]),
            ("b2".toList, [("k2".toList, "2".toList)])] :
            List (Str × List (Str × Str))), countMatched s it.2 ≤ 1)) ∧
    countName "uptime".toList
        (collect false [statSingleton]
          [("b1".toList, [("k1".toList, "1".toList)]),
            ("b2".toList, [("k2".toList, "2".toList)])]).1 ≤ 1 :=
  ⟨⟨by decide, by decide⟩,
    c9_singleton_at_most_one_sample false [statSingleton]
      [("b1".toList, [("k1".toList, "1".toList)]),
        ("b2".toList, [("k2".toList, "2".toList)])] "uptime".toList
      (by decide) (by decide)⟩
